import Mathlib

/-!
Shallow embedding of the `microecs` crate (entity-component store).

The Rust source keeps, per `Chunk`:
  * `ChunkEntities`: a `HashMap<Entity, usize>` from entity id to dense row,
    a dense `Vec<Entity>` of live entities, and a monotone `u64` id generator;
  * `ChunkComponents`: one type-erased dense column `Vec<Option<T>>` per
    registered component type, each guarded by a non-blocking `spin::RwLock`.

Modelling choices:
  * `Entity` is `Nat`; the `u64` generator increment wraps, written with an
    explicit `% 2^64`.
  * The `HashMap<Entity, usize>` is modelled as an association list with
    HashMap semantics (`insertA` replaces, `removeA` erases); its iteration
    order is irrelevant to every claim proved here.
  * Component values are `Nat` (the store is fully generic in the value type;
    no claim depends on the element type).
  * Registered component types are identified by their column position; the
    `TypeId`-keyed map of columns becomes a `List Column`.  The `downcast`
    failure (`InternalStorageError`) is unrepresentable in the model, exactly
    as it is unreachable under correct registration in the source.
  * A `spin::RwLock` is a `Borrow` state; `try_read`/`try_write` are the
    non-blocking acquisition functions.  Rust statically prevents guards from
    being alive across `&mut self` calls, but the lock state is runtime data
    (a leaked guard keeps a lock held), so the error paths of `push_none` /
    `swap_remove` are kept in the model.
  * Every fallible Rust function returns its `Result` together with the
    post-state, so partial mutation before an early `?`-return is preserved.
-/

namespace Microecs

/-- Entity ids are `u64` in the source (`pub struct Entity(pub(crate) u64)`). -/
abbrev Entity := Nat

/-- The modulus `2^64` of the `u64` entity id generator. -/
def U64 : Nat := 2 ^ 64

/-- The `Error` enum of `lib.rs` (static type-name payloads dropped). -/
inductive Err where
  | InvalidEntity (e : Entity)
  | InternalStorageError
  | ComponentNotRegistered
  | ComponentAlreadyBorrowedMutably
  | ResourceNotFound
  | ResourceAlreadyBorrowedMutably
  | CorruptedResource
  | CommandQueueMissing
  | CommandQueueAlreadyBorrowedMutably
  deriving DecidableEq

/-- State of one `spin::RwLock`: free, held by `n` readers, or held by a writer. -/
inductive Borrow where
  | free
  | shared (n : Nat)
  | exclusive
  deriving DecidableEq

/-- Model of `RwLock::try_read`: fails only against an outstanding writer. -/
def tryRead : Borrow → Option Borrow
  | .free => some (.shared 1)
  | .shared n => some (.shared (n + 1))
  | .exclusive => none

/-- Model of `RwLock::try_write`: fails against any outstanding borrow. -/
def tryWrite : Borrow → Option Borrow
  | .free => some .exclusive
  | _ => none

/-- One registered component column: its lock state and its dense
`Vec<Option<T>>` data (`ComponentsImpl<T>`). -/
structure Column where
  borrow : Borrow
  data : List (Option Nat)
  deriving DecidableEq

/-! ### Association-list model of `HashMap<Entity, usize>` -/

/-- Model of `HashMap::get`: first (and, with unique keys, only) binding of `e`. -/
def lookupA : List (Entity × Nat) → Entity → Option Nat
  | [], _ => none
  | p :: rest, e => if p.1 = e then some p.2 else lookupA rest e

/-- Model of `HashMap::remove`: erase every binding of `e` (with unique keys, the one). -/
def removeA (m : List (Entity × Nat)) (e : Entity) : List (Entity × Nat) :=
  m.filter (fun p => p.1 != e)

/-- Model of `HashMap::insert`: bind `e`, replacing any previous binding. -/
def insertA (m : List (Entity × Nat)) (e : Entity) (v : Nat) : List (Entity × Nat) :=
  (e, v) :: removeA m e

/-! ### The store -/

/-- Model of `Chunk`: `ChunkEntities` (fields `indexes`, `id`, `entity_id_generator`)
together with its `ChunkComponents` columns.  (The store-scoped item registry
is not involved in any claim.) -/
structure Chunk where
  indexes : List (Entity × Nat)
  id : List Entity
  entity_id_generator : Nat
  cols : List Column
  deriving DecidableEq

/-- A store fresh out of `ChunkBuilder::build` with `k` component types
registered: empty index, empty dense sequence, generator `0`, `k` empty
unlocked columns. -/
def mkChunk (k : Nat) : Chunk :=
  ⟨[], [], 0, List.replicate k ⟨.free, []⟩⟩

/-- Model of `ChunkComponents::push_none`: walk the columns, `try_write` each and push
an absent slot; the first locked column aborts with
`ComponentAlreadyBorrowedMutably`, leaving the columns already walked extended
and the rest untouched (the Rust `?` inside the `for` loop). -/
def push_none : List Column → List Column × Option Err
  | [] => ([], none)
  | col :: rest =>
    if col.borrow = .free then
      let r := push_none rest
      (⟨col.borrow, col.data ++ [none]⟩ :: r.1, r.2)
    else
      (col :: rest, some .ComponentAlreadyBorrowedMutably)

/-- Model of `Vec::swap_remove i`: overwrite slot `i` with the last element, then pop.
(Rust panics when `i` is out of bounds or the vector is empty; the model is
total, and the panic-freedom claim shows those cases are unreachable.) -/
def swapRemove (l : List α) (i : Nat) : List α :=
  match l.getLast? with
  | none => []
  | some last => (l.set i last).dropLast

/-- Model of `ChunkComponents::swap_remove`: walk the columns, `try_write` each and
swap-remove row `i`; first locked column aborts, as in `push_none`. -/
def swap_remove_cols : List Column → Nat → List Column × Option Err
  | [], _ => ([], none)
  | col :: rest, i =>
    if col.borrow = .free then
      let r := swap_remove_cols rest i
      (⟨col.borrow, swapRemove col.data i⟩ :: r.1, r.2)
    else
      (col :: rest, some .ComponentAlreadyBorrowedMutably)

/-- Model of `ChunkEntities::spawn` (as called by `Chunk::spawn`): reserve the next id,
push it onto the dense sequence, append an absent slot to every column, then
insert the index binding and bump the generator.  The result is returned with
the post-state; note the dense push happens before the fallible column walk,
exactly as in the source. -/
def Chunk.spawn (c : Chunk) : Except Err Entity × Chunk :=
  let idNew := c.entity_id_generator
  let index := c.id.length
  let p := push_none c.cols
  match p.2 with
  | some e => (.error e, { c with id := c.id ++ [idNew], cols := p.1 })
  | none =>
    (.ok idNew,
      { indexes := insertA c.indexes idNew index
        id := c.id ++ [idNew]
        entity_id_generator := (c.entity_id_generator + 1) % U64
        cols := p.1 })

/-- Model of `ChunkEntities::destroy` (as called by `Chunk::destroy`): remove the index
binding (`InvalidEntity` if absent), read the last dense entity, swap-remove
the freed row from the dense sequence and from every column, and re-point the
moved last entity at the freed row unless the store emptied or the destroyed
row was itself the last one. -/
def Chunk.destroy (c : Chunk) (e : Entity) : Except Err Unit × Chunk :=
  match lookupA c.indexes e with
  | none => (.error (.InvalidEntity e), c)
  | some index =>
    let m1 := removeA c.indexes e
    let lastRow := c.id.getLast?.getD 0
    let id2 := swapRemove c.id index
    let r := swap_remove_cols c.cols index
    match r.2 with
    | some err => (.error err, { indexes := m1, id := id2, entity_id_generator := c.entity_id_generator, cols := r.1 })
    | none =>
      let m2 := if id2 ≠ [] ∧ lastRow ≠ e then insertA m1 lastRow index else m1
      (.ok (), { indexes := m2, id := id2, entity_id_generator := c.entity_id_generator, cols := r.1 })

/-- Model of `ChunkEntities::index`. -/
def Chunk.index (c : Chunk) (e : Entity) : Option Nat :=
  lookupA c.indexes e

/-- Model of `ChunkComponents::components_ref::<T>`: locate the column registered for
the type (`ComponentNotRegistered` otherwise) and `try_read` its lock
(`ComponentAlreadyBorrowedMutably` against a writer).  The post-state carries
the acquired reader. -/
def components_ref (c : Chunk) (t : Nat) : Except Err Chunk :=
  match c.cols[t]? with
  | none => .error .ComponentNotRegistered
  | some col =>
    match tryRead col.borrow with
    | none => .error .ComponentAlreadyBorrowedMutably
    | some b => .ok { c with cols := c.cols.set t ⟨b, col.data⟩ }

/-- Model of `ChunkComponents::components_mut::<T>`: as `components_ref`, with
`try_write`. -/
def components_mut (c : Chunk) (t : Nat) : Except Err Chunk :=
  match c.cols[t]? with
  | none => .error .ComponentNotRegistered
  | some col =>
    match tryWrite col.borrow with
    | none => .error .ComponentAlreadyBorrowedMutably
    | some b => .ok { c with cols := c.cols.set t ⟨b, col.data⟩ }

/-- Model of `Chunk::add_component`: entity row lookup (`InvalidEntity` if unknown),
then `components_mut::<T>()?.values.set(index, Some(value))`. -/
def Chunk.add_component (c : Chunk) (t : Nat) (e : Entity) (v : Nat) : Except Err Chunk :=
  match lookupA c.indexes e with
  | none => .error (.InvalidEntity e)
  | some i =>
    match c.cols[t]? with
    | none => .error .ComponentNotRegistered
    | some col =>
      match tryWrite col.borrow with
      | none => .error .ComponentAlreadyBorrowedMutably
      | some _ => .ok { c with cols := c.cols.set t ⟨col.borrow, col.data.set i (some v)⟩ }

/-- Model of `ComponentsRef::get` observed through the store: entity row lookup, then
the column slot at that row (`None` for an unknown entity or an absent
value). -/
def Chunk.get_component (c : Chunk) (t : Nat) (e : Entity) : Option Nat :=
  match lookupA c.indexes e with
  | none => none
  | some i => (c.cols.getD t ⟨.free, []⟩).data.getD i none

/-! ### A live `ComponentsMut<T>` writer view

`ComponentsMut` holds the entity index (through `&ChunkEntities`) and the
write-locked column data; `insert`/`remove`/`get`/`get_mut` resolve the entity
to a row first. -/

structure ComponentsMutView where
  indexes : List (Entity × Nat)
  values : List (Option Nat)
  deriving DecidableEq

/-- Model of `ComponentsMut::insert`. -/
def ComponentsMutView.insert (m : ComponentsMutView) (e : Entity) (v : Nat) :
    Except Err ComponentsMutView :=
  match lookupA m.indexes e with
  | none => .error (.InvalidEntity e)
  | some i => .ok { m with values := m.values.set i (some v) }

/-- Model of `ComponentsMut::remove`. -/
def ComponentsMutView.remove (m : ComponentsMutView) (e : Entity) :
    Except Err ComponentsMutView :=
  match lookupA m.indexes e with
  | none => .error (.InvalidEntity e)
  | some i => .ok { m with values := m.values.set i none }

/-- Model of `ComponentsMut::get`. -/
def ComponentsMutView.get (m : ComponentsMutView) (e : Entity) : Option Nat :=
  match lookupA m.indexes e with
  | none => none
  | some i => m.values.getD i none

/-- Model of `ComponentsMut::get_mut` (the value it exposes; aliasing is by `&mut`). -/
def ComponentsMutView.get_mut (m : ComponentsMutView) (e : Entity) : Option Nat :=
  match lookupA m.indexes e with
  | none => none
  | some i => m.values.getD i none

/-! ### Operation traces -/

/-- One public structural operation on a store. -/
inductive Op where
  | spawn
  | destroy (e : Entity)
  deriving DecidableEq

/-- The post-state of one operation (results discarded; a failed `destroy`
leaves the state unchanged, a `spawn` in any trace-reachable state succeeds). -/
def applyOp (c : Chunk) : Op → Chunk
  | .spawn => c.spawn.2
  | .destroy e => (c.destroy e).2

/-- Run a sequence of public operations. -/
def runOps : Chunk → List Op → Chunk
  | c, [] => c
  | c, op :: rest => runOps (applyOp c op) rest

/-- Number of `spawn` operations in a trace. -/
def spawnCount : List Op → Nat
  | [] => 0
  | .spawn :: rest => spawnCount rest + 1
  | .destroy _ :: rest => spawnCount rest

/-! ### Store invariant -/

/-- The alignment invariant of a `Chunk`:
index bindings point at rows holding their entity; every row's entity is bound
to that row; index keys are unique; index size equals the dense length; every
column is as long as the dense sequence and unlocked; every live id is below
the generator. -/
def Inv (c : Chunk) : Prop :=
  (∀ p ∈ c.indexes, c.id[p.2]? = some p.1) ∧
  (∀ r < c.id.length, lookupA c.indexes (c.id.getD r 0) = some r) ∧
  (c.indexes.map Prod.fst).Nodup ∧
  c.indexes.length = c.id.length ∧
  (∀ col ∈ c.cols, col.data.length = c.id.length ∧ col.borrow = .free) ∧
  (∀ e ∈ c.id, e < c.entity_id_generator)

/-! ### Command queue (`CommandQueue`, `Commands`) -/

/-- The observable state of the global `Resources` registry for the queue
claims: the registry's internals never matter to the queue itself (commands
are opaque callbacks receiving `&mut Resources`); the spec's scenario uses it
as a shared log of markers. -/
abbrev Res := List Nat

/-- Model of `type Command = Box<dyn Fn(&mut Chunk, &mut Resources) -> Result<()>>`:
a deferred mutation of the store and the resources. -/
def Cmd : Type := Chunk → Res → Except Err (Chunk × Res)

/-- Model of `CommandQueue::flush`: pop commands front-to-back, applying each to the
live store/resources; the first failing command stops the drain, its error is
the result and the commands behind it stay queued.  Returns the final state,
the remaining queue and the error, if any. -/
def flush : List Cmd → Chunk → Res → (Chunk × Res) × List Cmd × Option Err
  | [], c, r => ((c, r), [], none)
  | cmd :: rest, c, r =>
    match cmd c r with
    | .error e => ((c, r), rest, some e)
    | .ok s => flush rest s.1 s.2

/-- Model of `Commands::defer`: `push_back` onto the queue. -/
def defer (q : List Cmd) (cmd : Cmd) : List Cmd :=
  q ++ [cmd]

/-! ### Query composition (`query.rs`) -/

/-- Model of `Option::zip`, as used by `impl Query for (A, B)`. -/
def optZip : Option α → Option β → Option (α × β)
  | some a, some b => some (a, b)
  | _, _ => none

/-- The per-row sequence of a pair query:
`A::iter(a).zip(B::iter(b)).map(|(a, b)| a.zip(b))`. -/
def pairIter (a : List (Option α)) (b : List (Option β)) : List (Option (α × β)) :=
  List.zipWith optZip a b

/-- The terminal `Query::query`: `self.iter().filter_map(|v| v)`. -/
def queryList (l : List (Option α)) : List α :=
  l.filterMap id

/-- Model of `Chunk::add_component` with the old store kept on error (every use in the
scenarios below succeeds). -/
def addC (c : Chunk) (t : Nat) (e : Entity) (v : Nat) : Chunk :=
  match c.add_component t e v with
  | .ok c2 => c2
  | .error _ => c

/-- The spec's query-absence scenario: spawn entities 0,1,2,3; component X
(column 0) on entities 1 and 2; component Y (column 1) on entities 2 and 3. -/
def queryScenario : Chunk :=
  addC (addC (addC (addC
    (runOps (mkChunk 2) [Op.spawn, Op.spawn, Op.spawn, Op.spawn])
    0 1 10) 0 2 20) 1 2 21) 1 3 31

/-! ### System execution (`systems.rs`) -/

/-- One declared system parameter (the parameter shapes the claims exercise:
the live-entity view, shared/exclusive column views, the deferred-command
handle). -/
inductive ParamSpec where
  | entities
  | compRef (t : Nat)
  | compMut (t : Nat)
  | commands
  deriving DecidableEq

/-- Model of `SystemParam::get_param` for one parameter, threading the resolution
state: the store (whose column lock states record the borrows acquired so
far) and whether the command queue's lock is held.  `Entities` borrows
nothing; column views call `components_ref`/`components_mut`; `Commands`
takes the queue's write lock (`CommandQueueAlreadyBorrowedMutably` if already
held). -/
def get_param : ParamSpec → Chunk × Bool → Except Err (Chunk × Bool)
  | .entities, s => .ok s
  | .compRef t, s => (components_ref s.1 t).map (fun c2 => (c2, s.2))
  | .compMut t, s => (components_mut s.1 t).map (fun c2 => (c2, s.2))
  | .commands, s =>
    if s.2 then .error .CommandQueueAlreadyBorrowedMutably else .ok (s.1, true)

/-- Model of `System::get_params` over the declared tuple: resolve each parameter in
declaration order, short-circuiting on the first failure (the nested `?` of
the tuple impl). -/
def get_params : List ParamSpec → Chunk × Bool → Except Err (Chunk × Bool)
  | [], s => .ok s
  | p :: rest, s => (get_param p s).bind (get_params rest)

/-- The outcome of one `SystemsContext::run` invocation. -/
structure RunOut where
  err : Option Err
  chunk : Chunk
  res : Res
  queue : List Cmd
  bodyRuns : Nat

/-- Model of `SystemsContext::run`: resolve the parameter tuple against the store with
the queue lock free; on failure return that parameter's error with nothing
changed and the body never invoked.  On success the body runs exactly once
(its effects on column data, resources and the queue are the `body` function;
the resolved guards die with the body's scope, so the flush below operates on
the store with its original lock states), then the queue is flushed and a
flush failure becomes the call's error. -/
def run (specs : List ParamSpec)
    (body : Chunk → Res → List Cmd → Chunk × Res × List Cmd)
    (c : Chunk) (r : Res) (q : List Cmd) : RunOut :=
  match get_params specs (c, false) with
  | .error e => ⟨some e, c, r, q, 0⟩
  | .ok _ =>
    let b := body c r q
    let f := flush b.2.2 b.1 b.2.1
    ⟨f.2.2, f.1.1, f.1.2, f.2.1, 1⟩

instance {ε α : Type} [DecidableEq ε] [DecidableEq α] : DecidableEq (Except ε α) := fun a b =>
  match a, b with
  | .ok x, .ok y =>
    if h : x = y then .isTrue (by rw [h]) else .isFalse (by simp [h])
  | .error x, .error y =>
    if h : x = y then .isTrue (by rw [h]) else .isFalse (by simp [h])
  | .ok _, .error _ => .isFalse (by simp)
  | .error _, .ok _ => .isFalse (by simp)

instance decInv (c : Chunk) : Decidable (Inv c) := by
  unfold Inv
  exact inferInstance

/-! ### Association-list lemmas -/

theorem lookupA_cons (a : Entity) (b : Nat) (rest : List (Entity × Nat)) (e : Entity) :
    lookupA ((a, b) :: rest) e = if a = e then some b else lookupA rest e := rfl

theorem removeA_nil (e : Entity) : removeA [] e = [] := rfl

theorem removeA_cons (a : Entity) (b : Nat) (rest : List (Entity × Nat)) (e : Entity) :
    removeA ((a, b) :: rest) e =
      if a = e then removeA rest e else (a, b) :: removeA rest e := by
  by_cases h : a = e <;> simp [removeA, List.filter_cons, h]

theorem lookupA_mem {m : List (Entity × Nat)} {e : Entity} {r : Nat}
    (h : lookupA m e = some r) : (e, r) ∈ m := by
  induction m with
  | nil => simp [lookupA] at h
  | cons p rest ih =>
    obtain ⟨a, b⟩ := p
    rw [lookupA_cons] at h
    by_cases hp : a = e
    · rw [if_pos hp] at h
      rw [List.mem_cons]
      left
      rw [← hp, Option.some_inj.mp h]
    · rw [if_neg hp] at h
      exact List.mem_cons_of_mem _ (ih h)

theorem lookupA_eq_none_iff {m : List (Entity × Nat)} {e : Entity} :
    lookupA m e = none ↔ e ∉ m.map Prod.fst := by
  induction m with
  | nil => simp [lookupA]
  | cons p rest ih =>
    obtain ⟨a, b⟩ := p
    rw [lookupA_cons, List.map_cons, List.mem_cons]
    by_cases hp : a = e
    · rw [if_pos hp]
      constructor
      · intro h
        exact absurd h (by simp)
      · intro h
        exact absurd (Or.inl hp.symm) h
    · rw [if_neg hp, ih]
      constructor
      · intro h hc
        rcases hc with hc | hc
        · exact hp hc.symm
        · exact h hc
      · intro h hc
        exact h (Or.inr hc)

theorem mem_lookupA {m : List (Entity × Nat)} {e : Entity} {r : Nat}
    (hnd : (m.map Prod.fst).Nodup) (h : (e, r) ∈ m) : lookupA m e = some r := by
  induction m with
  | nil => simp at h
  | cons p rest ih =>
    obtain ⟨a, b⟩ := p
    have hnd2 : a ∉ rest.map Prod.fst ∧ (rest.map Prod.fst).Nodup := by
      rw [List.map_cons] at hnd
      exact List.nodup_cons.mp hnd
    rw [List.mem_cons] at h
    rw [lookupA_cons]
    rcases h with h | h
    · have he : e = a := congrArg Prod.fst h
      have hr : r = b := congrArg Prod.snd h
      rw [if_pos he.symm, hr]
    · have hne : a ≠ e := by
        intro hc
        apply hnd2.1
        rw [hc]
        exact List.mem_map_of_mem Prod.fst h
      rw [if_neg hne]
      exact ih hnd2.2 h

theorem lookupA_removeA_self (m : List (Entity × Nat)) (e : Entity) :
    lookupA (removeA m e) e = none := by
  induction m with
  | nil => rfl
  | cons p rest ih =>
    obtain ⟨a, b⟩ := p
    rw [removeA_cons]
    by_cases hp : a = e
    · rw [if_pos hp]
      exact ih
    · rw [if_neg hp, lookupA_cons, if_neg hp]
      exact ih

theorem lookupA_removeA_ne {m : List (Entity × Nat)} {e f : Entity}
    (h : f ≠ e) : lookupA (removeA m e) f = lookupA m f := by
  induction m with
  | nil => rfl
  | cons p rest ih =>
    obtain ⟨a, b⟩ := p
    rw [removeA_cons, lookupA_cons]
    by_cases hp : a = e
    · have hpf : ¬ a = f := by
        rw [hp]
        exact fun hc => h hc.symm
      rw [if_pos hp, if_neg hpf]
      exact ih
    · rw [if_neg hp, lookupA_cons]
      by_cases hpf : a = f
      · rw [if_pos hpf, if_pos hpf]
      · rw [if_neg hpf, if_neg hpf]
        exact ih

theorem lookupA_insertA_self (m : List (Entity × Nat)) (e : Entity) (v : Nat) :
    lookupA (insertA m e v) e = some v := by
  simp [insertA, lookupA_cons]

theorem lookupA_insertA_ne {m : List (Entity × Nat)} {e f : Entity} {v : Nat}
    (h : f ≠ e) : lookupA (insertA m e v) f = lookupA m f := by
  have hne : ¬ e = f := fun hc => h hc.symm
  rw [insertA, lookupA_cons, if_neg hne]
  exact lookupA_removeA_ne h

theorem removeA_eq_of_none {m : List (Entity × Nat)} {e : Entity}
    (h : lookupA m e = none) : removeA m e = m := by
  induction m with
  | nil => rfl
  | cons p rest ih =>
    obtain ⟨a, b⟩ := p
    rw [lookupA_cons] at h
    by_cases hp : a = e
    · rw [if_pos hp] at h
      exact absurd h (by simp)
    · rw [if_neg hp] at h
      rw [removeA_cons, if_neg hp, ih h]

theorem keys_removeA (m : List (Entity × Nat)) (e : Entity) :
    (removeA m e).map Prod.fst = (m.map Prod.fst).filter (fun f => f != e) := by
  induction m with
  | nil => rfl
  | cons p rest ih =>
    obtain ⟨a, b⟩ := p
    rw [removeA_cons]
    by_cases hp : a = e
    · rw [if_pos hp]
      simp [List.filter_cons, hp, ih]
    · rw [if_neg hp]
      simp [List.filter_cons, hp, ih]

theorem keys_nodup_removeA {m : List (Entity × Nat)} {e : Entity}
    (h : (m.map Prod.fst).Nodup) : ((removeA m e).map Prod.fst).Nodup := by
  rw [keys_removeA]
  exact List.Nodup.filter _ h

theorem keys_nodup_insertA {m : List (Entity × Nat)} {e : Entity} {v : Nat}
    (h : (m.map Prod.fst).Nodup) : ((insertA m e v).map Prod.fst).Nodup := by
  have h2 : ((removeA m e).map Prod.fst).Nodup := keys_nodup_removeA h
  have h3 : e ∉ (removeA m e).map Prod.fst :=
    lookupA_eq_none_iff.mp (lookupA_removeA_self m e)
  have hkeys : (insertA m e v).map Prod.fst = e :: (removeA m e).map Prod.fst := rfl
  rw [hkeys]
  exact List.nodup_cons.mpr ⟨h3, h2⟩

theorem length_removeA_of_some {m : List (Entity × Nat)} {e : Entity} {r : Nat}
    (hnd : (m.map Prod.fst).Nodup) (h : lookupA m e = some r) :
    (removeA m e).length + 1 = m.length := by
  induction m with
  | nil => simp [lookupA] at h
  | cons p rest ih =>
    obtain ⟨a, b⟩ := p
    have hnd2 : a ∉ rest.map Prod.fst ∧ (rest.map Prod.fst).Nodup := by
      rw [List.map_cons] at hnd
      exact List.nodup_cons.mp hnd
    rw [lookupA_cons] at h
    rw [removeA_cons]
    by_cases hp : a = e
    · have hrest : lookupA rest e = none := by
        rw [lookupA_eq_none_iff, ← hp]
        exact hnd2.1
      rw [if_pos hp, removeA_eq_of_none hrest]
      simp
    · rw [if_neg hp] at h
      rw [if_neg hp]
      simp only [List.length_cons]
      rw [← ih hnd2.2 h]

/-! ### `swapRemove` lemmas -/

theorem swapRemove_length {l : List α} (h : l ≠ []) (i : Nat) :
    (swapRemove l i).length = l.length - 1 := by
  unfold swapRemove
  match hl : l.getLast? with
  | none =>
    rw [List.getLast?_eq_none_iff] at hl
    exact absurd hl h
  | some last => simp

theorem swapRemove_getElem? {l : List α} {i : Nat} (hi : i < l.length) (r : Nat) :
    (swapRemove l i)[r]? =
      if r + 1 < l.length then (if r = i then l[l.length - 1]? else l[r]?) else none := by
  have hne : l ≠ [] := by
    intro hc
    rw [hc] at hi
    simp at hi
  unfold swapRemove
  match hl : l.getLast? with
  | none =>
    rw [List.getLast?_eq_none_iff] at hl
    exact absurd hl hne
  | some last =>
    rw [List.getElem?_dropLast, List.length_set]
    by_cases hr : r + 1 < l.length
    · have hr' : r < l.length - 1 := by omega
      rw [if_pos hr', if_pos hr]
      by_cases hri : r = i
      · rw [if_pos hri, hri, List.getElem?_set_self hi]
        rw [List.getLast?_eq_getElem?] at hl
        exact hl.symm
      · rw [if_neg hri, List.getElem?_set_ne (fun hc => hri hc.symm)]
    · have hr' : ¬ r < l.length - 1 := by omega
      rw [if_neg hr', if_neg hr]

/-! ### Invariant machinery -/

/-- The index and the dense sequence describe the same bijection between live
entities and rows. -/
def Bij (m : List (Entity × Nat)) (ids : List Entity) : Prop :=
  ∀ e r, lookupA m e = some r ↔ ids[r]? = some e

theorem bij_of_inv {c : Chunk} (h : Inv c) : Bij c.indexes c.id := by
  obtain ⟨hsound, hcomp, hnd, hlen, hcols, hfresh⟩ := h
  intro e r
  constructor
  · intro hl
    exact hsound _ (lookupA_mem hl)
  · intro hg
    have hr : r < c.id.length := by
      by_contra hcon
      rw [List.getElem?_eq_none (Nat.le_of_not_lt hcon)] at hg
      exact absurd hg (by simp)
    have hc := hcomp r hr
    rw [List.getD_eq_getElem?_getD, hg] at hc
    exact hc

theorem inv_of_parts {c : Chunk}
    (hbij : Bij c.indexes c.id)
    (hnd : (c.indexes.map Prod.fst).Nodup)
    (hlen : c.indexes.length = c.id.length)
    (hcols : ∀ col ∈ c.cols, col.data.length = c.id.length ∧ col.borrow = .free)
    (hfresh : ∀ e ∈ c.id, e < c.entity_id_generator) : Inv c := by
  refine ⟨?_, ?_, hnd, hlen, hcols, hfresh⟩
  · intro p hp
    exact (hbij p.1 p.2).mp (mem_lookupA hnd hp)
  · intro r hr
    apply (hbij _ r).mpr
    rw [List.getD_eq_getElem?_getD, List.getElem?_eq_getElem hr]
    rfl

theorem inv_lookup_lt {c : Chunk} (h : Inv c) {e : Entity} {i : Nat}
    (hl : lookupA c.indexes e = some i) : i < c.id.length := by
  have hg := (bij_of_inv h e i).mp hl
  by_contra hcon
  rw [List.getElem?_eq_none (Nat.le_of_not_lt hcon)] at hg
  exact absurd hg (by simp)

theorem inv_mem_of_lookup {c : Chunk} (h : Inv c) {e : Entity} {i : Nat}
    (hl : lookupA c.indexes e = some i) : e ∈ c.id := by
  have hg := (bij_of_inv h e i).mp hl
  exact List.mem_iff_getElem?.mpr ⟨i, hg⟩

theorem inv_lookup_of_mem {c : Chunk} (h : Inv c) {e : Entity}
    (hm : e ∈ c.id) : ∃ i, lookupA c.indexes e = some i := by
  obtain ⟨i, hg⟩ := List.mem_iff_getElem?.mp hm
  exact ⟨i, (bij_of_inv h e i).mpr hg⟩

/-! ### Column-walk lemmas (all locks free) -/

theorem push_none_of_free {cols : List Column}
    (h : ∀ col ∈ cols, col.borrow = .free) :
    push_none cols = (cols.map (fun col => ⟨col.borrow, col.data ++ [none]⟩), none) := by
  induction cols with
  | nil => rfl
  | cons col rest ih =>
    have hcol : col.borrow = .free := h col (List.mem_cons_self ..)
    have hrest := ih (fun d hd => h d (List.mem_cons_of_mem _ hd))
    simp [push_none, hcol, hrest]

theorem swap_remove_cols_of_free {cols : List Column}
    (h : ∀ col ∈ cols, col.borrow = .free) (i : Nat) :
    swap_remove_cols cols i =
      (cols.map (fun col => ⟨col.borrow, swapRemove col.data i⟩), none) := by
  induction cols with
  | nil => rfl
  | cons col rest ih =>
    have hcol : col.borrow = .free := h col (List.mem_cons_self ..)
    have hrest := ih (fun d hd => h d (List.mem_cons_of_mem _ hd))
    simp [swap_remove_cols, hcol, hrest]

/-! ### `spawn` characterization -/

theorem spawn_eq_of_free {c : Chunk}
    (hfree : ∀ col ∈ c.cols, col.borrow = .free) :
    c.spawn = (.ok c.entity_id_generator,
      { indexes := insertA c.indexes c.entity_id_generator c.id.length
        id := c.id ++ [c.entity_id_generator]
        entity_id_generator := (c.entity_id_generator + 1) % U64
        cols := c.cols.map (fun col => ⟨col.borrow, col.data ++ [none]⟩) }) := by
  simp [Chunk.spawn, push_none_of_free hfree]

theorem inv_spawn {c : Chunk} (h : Inv c)
    (hb : c.entity_id_generator + 1 < U64) :
    Inv c.spawn.2 ∧ c.spawn.1 = .ok c.entity_id_generator ∧
    c.spawn.2.entity_id_generator = c.entity_id_generator + 1 ∧
    c.spawn.2.id = c.id ++ [c.entity_id_generator] ∧
    c.spawn.2.indexes = insertA c.indexes c.entity_id_generator c.id.length := by
  obtain ⟨hsound, hcomp, hnd, hlen, hcols, hfresh⟩ := h
  have h' : Inv c := ⟨hsound, hcomp, hnd, hlen, hcols, hfresh⟩
  have hfree : ∀ col ∈ c.cols, col.borrow = .free := fun col hc => (hcols col hc).2
  have hgen := c.entity_id_generator
  have hnotin : c.entity_id_generator ∉ c.id := by
    intro hmem
    exact absurd (hfresh _ hmem) (lt_irrefl _)
  have hnone : lookupA c.indexes c.entity_id_generator = none := by
    cases hcase : lookupA c.indexes c.entity_id_generator with
    | none => rfl
    | some r => exact absurd (inv_mem_of_lookup h' hcase) hnotin
  have heq := spawn_eq_of_free hfree
  have hmod : (c.entity_id_generator + 1) % U64 = c.entity_id_generator + 1 :=
    Nat.mod_eq_of_lt hb
  rw [heq]
  refine ⟨?_, rfl, hmod, rfl, rfl⟩
  apply inv_of_parts
  · -- bijection for the extended state
    intro f r
    by_cases hf : f = c.entity_id_generator
    · rw [hf, lookupA_insertA_self]
      constructor
      · intro hs
        have hr : r = c.id.length := by
          have := Option.some_inj.mp hs
          omega
        rw [hr, List.getElem?_concat_length]
      · intro hg
        by_cases hr : r < c.id.length
        · rw [List.getElem?_append_left hr] at hg
          exact absurd (List.mem_iff_getElem?.mpr ⟨r, hg⟩) hnotin
        · by_cases hr2 : r = c.id.length
          · rw [hr2]
          · have hge : (c.id ++ [c.entity_id_generator]).length ≤ r := by
              simp
              omega
            rw [List.getElem?_eq_none hge] at hg
            exact absurd hg (by simp)
    · rw [lookupA_insertA_ne hf]
      constructor
      · intro hs
        have hr := inv_lookup_lt h' hs
        rw [List.getElem?_append_left hr]
        exact (bij_of_inv h' f r).mp hs
      · intro hg
        by_cases hr : r < c.id.length
        · rw [List.getElem?_append_left hr] at hg
          exact (bij_of_inv h' f r).mpr hg
        · by_cases hr2 : r = c.id.length
          · rw [hr2, List.getElem?_concat_length] at hg
            exact absurd (Option.some_inj.mp hg).symm hf
          · have hge : (c.id ++ [c.entity_id_generator]).length ≤ r := by
              simp
              omega
            rw [List.getElem?_eq_none hge] at hg
            exact absurd hg (by simp)
  · exact keys_nodup_insertA hnd
  · have : (insertA c.indexes c.entity_id_generator c.id.length).length
        = (removeA c.indexes c.entity_id_generator).length + 1 := rfl
    rw [this, removeA_eq_of_none hnone, hlen]
    simp
  · intro col hcol
    simp only [List.mem_map] at hcol
    obtain ⟨d, hd, hdef⟩ := hcol
    rw [← hdef]
    simp
    exact ⟨(hcols d hd).1, (hcols d hd).2⟩
  · intro f hf
    simp only [List.mem_append, List.mem_singleton] at hf
    show f < (c.entity_id_generator + 1) % U64
    rw [hmod]
    rcases hf with hf | hf
    · exact Nat.lt_trans (hfresh f hf) (Nat.lt_succ_self _)
    · rw [hf]
      exact Nat.lt_succ_self _

/-! ### `destroy` characterization -/

theorem destroy_eq_of_none {c : Chunk} {e : Entity}
    (hl : lookupA c.indexes e = none) :
    c.destroy e = (.error (.InvalidEntity e), c) := by
  simp [Chunk.destroy, hl]

theorem destroy_ok_of_inv {c : Chunk} (h : Inv c) {e : Entity} {i : Nat}
    (hl : lookupA c.indexes e = some i) :
    c.destroy e = (.ok (),
      { indexes := if i + 1 < c.id.length
            then insertA (removeA c.indexes e) (c.id.getLast?.getD 0) i
            else removeA c.indexes e
        id := swapRemove c.id i
        entity_id_generator := c.entity_id_generator
        cols := c.cols.map (fun col => ⟨col.borrow, swapRemove col.data i⟩) }) := by
  have hilt : i < c.id.length := inv_lookup_lt h hl
  have hid_i : c.id[i]? = some e := (bij_of_inv h e i).mp hl
  have hlen0 : 0 < c.id.length := Nat.lt_of_le_of_lt (Nat.zero_le i) hilt
  have hne : c.id ≠ [] := by
    intro hc
    rw [hc] at hlen0
    simp at hlen0
  have hlast9 : c.id.getLast? = c.id[c.id.length - 1]? := List.getLast?_eq_getElem? _
  obtain ⟨lastx, hlx⟩ : ∃ x, c.id[c.id.length - 1]? = some x := by
    have hl1 : c.id.length - 1 < c.id.length := by omega
    rw [List.getElem?_eq_getElem hl1]
    exact ⟨_, rfl⟩
  have hgetD : c.id.getLast?.getD 0 = lastx := by
    rw [hlast9, hlx]
    rfl
  have hlook_last : lookupA c.indexes lastx = some (c.id.length - 1) :=
    (bij_of_inv h _ _).mpr hlx
  have hfree : ∀ col ∈ c.cols, col.borrow = .free :=
    fun col hc => (h.2.2.2.2.1 col hc).2
  have hsw := swap_remove_cols_of_free hfree i
  by_cases hcase : i + 1 < c.id.length
  · have hlast_ne : lastx ≠ e := by
      intro hc
      rw [hc, hl] at hlook_last
      have := Option.some_inj.mp hlook_last
      omega
    have hnonempty : swapRemove c.id i ≠ [] := by
      have hslen := swapRemove_length hne i
      intro hc
      rw [hc] at hslen
      simp at hslen
      omega
    have hcond : swapRemove c.id i ≠ [] ∧ c.id.getLast?.getD 0 ≠ e := by
      rw [hgetD]
      exact ⟨hnonempty, hlast_ne⟩
    simp only [Chunk.destroy, hl, hsw]
    rw [if_pos hcond, if_pos hcase]
  · have hieq : i = c.id.length - 1 := by omega
    have hlast_eq : lastx = e := by
      rw [← hieq] at hlx
      rw [hid_i] at hlx
      exact (Option.some_inj.mp hlx).symm
    have hcond : ¬ (swapRemove c.id i ≠ [] ∧ c.id.getLast?.getD 0 ≠ e) := by
      intro hc
      apply hc.2
      rw [hgetD, hlast_eq]
    simp only [Chunk.destroy, hl, hsw]
    rw [if_neg hcond, if_neg hcase]

theorem bij_after_destroy {c : Chunk} (h : Inv c) {e : Entity} {i : Nat}
    (hl : lookupA c.indexes e = some i) :
    Bij (if i + 1 < c.id.length
           then insertA (removeA c.indexes e) (c.id.getLast?.getD 0) i
           else removeA c.indexes e)
        (swapRemove c.id i) := by
  have hilt : i < c.id.length := inv_lookup_lt h hl
  have hid_i : c.id[i]? = some e := (bij_of_inv h e i).mp hl
  have hlen0 : 0 < c.id.length := Nat.lt_of_le_of_lt (Nat.zero_le i) hilt
  have hlast9 : c.id.getLast? = c.id[c.id.length - 1]? := List.getLast?_eq_getElem? _
  obtain ⟨lastx, hlx⟩ : ∃ x, c.id[c.id.length - 1]? = some x := by
    have hl1 : c.id.length - 1 < c.id.length := by omega
    rw [List.getElem?_eq_getElem hl1]
    exact ⟨_, rfl⟩
  have hgetD : c.id.getLast?.getD 0 = lastx := by
    rw [hlast9, hlx]
    rfl
  have hlook_last : lookupA c.indexes lastx = some (c.id.length - 1) :=
    (bij_of_inv h _ _).mpr hlx
  have hsw := swapRemove_getElem? hilt
  by_cases hcase : i + 1 < c.id.length
  · have hlast_ne : lastx ≠ e := by
      intro hc
      rw [hc, hl] at hlook_last
      have := Option.some_inj.mp hlook_last
      omega
    rw [if_pos hcase, hgetD]
    intro f r
    by_cases hfl : f = lastx
    · rw [hfl, lookupA_insertA_self]
      constructor
      · intro hs
        have hr : r = i := (Option.some_inj.mp hs).symm
        rw [hr, hsw i, if_pos hcase, if_pos rfl]
        exact hlx
      · intro hg
        rw [hsw r] at hg
        by_cases hr1 : r + 1 < c.id.length
        · rw [if_pos hr1] at hg
          by_cases hri : r = i
          · rw [hri]
          · rw [if_neg hri] at hg
            have hlr := (bij_of_inv h lastx r).mpr hg
            rw [hlook_last] at hlr
            have := Option.some_inj.mp hlr
            omega
        · rw [if_neg hr1] at hg
          exact absurd hg (by simp)
    · by_cases hfe : f = e
      · rw [hfe, lookupA_insertA_ne (fun hc => hlast_ne hc.symm), lookupA_removeA_self]
        constructor
        · intro hs
          exact absurd hs (by simp)
        · intro hg
          rw [hsw r] at hg
          by_cases hr1 : r + 1 < c.id.length
          · rw [if_pos hr1] at hg
            by_cases hri : r = i
            · rw [if_pos hri, hlx] at hg
              exact absurd (Option.some_inj.mp hg) hlast_ne
            · rw [if_neg hri] at hg
              have hlr := (bij_of_inv h e r).mpr hg
              rw [hl] at hlr
              exact absurd (Option.some_inj.mp hlr).symm hri
          · rw [if_neg hr1] at hg
            exact absurd hg (by simp)
      · rw [lookupA_insertA_ne hfl, lookupA_removeA_ne hfe]
        constructor
        · intro hs
          have hrlt := inv_lookup_lt h hs
          have hgr := (bij_of_inv h f r).mp hs
          have hri : r ≠ i := by
            intro hc
            rw [hc, hid_i] at hgr
            exact hfe (Option.some_inj.mp hgr).symm
          have hrlast : r ≠ c.id.length - 1 := by
            intro hc
            rw [hc, hlx] at hgr
            exact hfl (Option.some_inj.mp hgr).symm
          rw [hsw r, if_pos (by omega), if_neg hri]
          exact hgr
        · intro hg
          rw [hsw r] at hg
          by_cases hr1 : r + 1 < c.id.length
          · rw [if_pos hr1] at hg
            by_cases hri : r = i
            · rw [if_pos hri, hlx] at hg
              exact absurd (Option.some_inj.mp hg).symm hfl
            · rw [if_neg hri] at hg
              exact (bij_of_inv h f r).mpr hg
          · rw [if_neg hr1] at hg
            exact absurd hg (by simp)
  · have hieq : i = c.id.length - 1 := by omega
    have hlast_eq : lastx = e := by
      rw [← hieq, hid_i] at hlx
      exact (Option.some_inj.mp hlx).symm
    rw [if_neg hcase]
    intro f r
    by_cases hfe : f = e
    · rw [hfe, lookupA_removeA_self]
      constructor
      · intro hs
        exact absurd hs (by simp)
      · intro hg
        rw [hsw r] at hg
        by_cases hr1 : r + 1 < c.id.length
        · rw [if_pos hr1] at hg
          by_cases hri : r = i
          · omega
          · rw [if_neg hri] at hg
            have hlr := (bij_of_inv h e r).mpr hg
            rw [hl] at hlr
            exact absurd (Option.some_inj.mp hlr).symm hri
        · rw [if_neg hr1] at hg
          exact absurd hg (by simp)
    · rw [lookupA_removeA_ne hfe]
      constructor
      · intro hs
        have hrlt := inv_lookup_lt h hs
        have hgr := (bij_of_inv h f r).mp hs
        have hri : r ≠ i := by
          intro hc
          rw [hc, hid_i] at hgr
          exact hfe (Option.some_inj.mp hgr).symm
        rw [hsw r, if_pos (by omega), if_neg hri]
        exact hgr
      · intro hg
        rw [hsw r] at hg
        by_cases hr1 : r + 1 < c.id.length
        · rw [if_pos hr1] at hg
          by_cases hri : r = i
          · omega
          · rw [if_neg hri] at hg
            exact (bij_of_inv h f r).mpr hg
        · rw [if_neg hr1] at hg
          exact absurd hg (by simp)

theorem inv_destroy {c : Chunk} (h : Inv c) {e : Entity} {i : Nat}
    (hl : lookupA c.indexes e = some i) :
    Inv (c.destroy e).2 ∧ (c.destroy e).1 = .ok () ∧
    lookupA (c.destroy e).2.indexes e = none ∧
    (c.destroy e).2.entity_id_generator = c.entity_id_generator := by
  have hilt : i < c.id.length := inv_lookup_lt h hl
  have hid_i : c.id[i]? = some e := (bij_of_inv h e i).mp hl
  have hlen0 : 0 < c.id.length := Nat.lt_of_le_of_lt (Nat.zero_le i) hilt
  have hne : c.id ≠ [] := by
    intro hc
    rw [hc] at hlen0
    simp at hlen0
  have hlast9 : c.id.getLast? = c.id[c.id.length - 1]? := List.getLast?_eq_getElem? _
  obtain ⟨lastx, hlx⟩ : ∃ x, c.id[c.id.length - 1]? = some x := by
    have hl1 : c.id.length - 1 < c.id.length := by omega
    rw [List.getElem?_eq_getElem hl1]
    exact ⟨_, rfl⟩
  have hgetD : c.id.getLast?.getD 0 = lastx := by
    rw [hlast9, hlx]
    rfl
  have hlook_last : lookupA c.indexes lastx = some (c.id.length - 1) :=
    (bij_of_inv h _ _).mpr hlx
  obtain ⟨hsound, hcomp, hnd, hlen, hcols, hfresh⟩ := h
  have h' : Inv c := ⟨hsound, hcomp, hnd, hlen, hcols, hfresh⟩
  have heq := destroy_ok_of_inv h' hl
  have hbij2 := bij_after_destroy h' hl
  have hswlen : (swapRemove c.id i).length = c.id.length - 1 := swapRemove_length hne i
  have hm1 : (removeA c.indexes e).length + 1 = c.indexes.length :=
    length_removeA_of_some hnd hl
  rw [heq]
  have hnone2 : lookupA
      (if i + 1 < c.id.length
        then insertA (removeA c.indexes e) (c.id.getLast?.getD 0) i
        else removeA c.indexes e) e = none := by
    by_cases hcase : i + 1 < c.id.length
    · have hlast_ne : lastx ≠ e := by
        intro hc
        rw [hc, hl] at hlook_last
        have := Option.some_inj.mp hlook_last
        omega
      rw [if_pos hcase, hgetD,
        lookupA_insertA_ne (fun hc => hlast_ne hc.symm), lookupA_removeA_self]
    · rw [if_neg hcase, lookupA_removeA_self]
  refine ⟨?_, rfl, hnone2, rfl⟩
  apply inv_of_parts
  · exact hbij2
  · by_cases hcase : i + 1 < c.id.length
    · show ((if i + 1 < c.id.length then _ else _ : List (Entity × Nat)).map Prod.fst).Nodup
      rw [if_pos hcase]
      exact keys_nodup_insertA (keys_nodup_removeA hnd)
    · show ((if i + 1 < c.id.length then _ else _ : List (Entity × Nat)).map Prod.fst).Nodup
      rw [if_neg hcase]
      exact keys_nodup_removeA hnd
  · show (if i + 1 < c.id.length then _ else _ : List (Entity × Nat)).length
      = (swapRemove c.id i).length
    by_cases hcase : i + 1 < c.id.length
    · have hlast_ne : lastx ≠ e := by
        intro hc
        rw [hc, hl] at hlook_last
        have := Option.some_inj.mp hlook_last
        omega
      have hlook1 : lookupA (removeA c.indexes e) lastx = some (c.id.length - 1) := by
        rw [lookupA_removeA_ne hlast_ne]
        exact hlook_last
      have hm2 : (removeA (removeA c.indexes e) lastx).length + 1
          = (removeA c.indexes e).length :=
        length_removeA_of_some (keys_nodup_removeA hnd) hlook1
      rw [if_pos hcase, hgetD]
      have hins : (insertA (removeA c.indexes e) lastx i).length
          = (removeA (removeA c.indexes e) lastx).length + 1 := rfl
      rw [hins, hswlen]
      omega
    · rw [if_neg hcase, hswlen]
      omega
  · intro col hcol
    simp only [List.mem_map] at hcol
    obtain ⟨d, hd, hdef⟩ := hcol
    have hdl : d.data.length = c.id.length := (hcols d hd).1
    have hdne : d.data ≠ [] := by
      intro hc
      rw [hc] at hdl
      simp at hdl
      omega
    rw [← hdef]
    constructor
    · show (swapRemove d.data i).length = (swapRemove c.id i).length
      rw [swapRemove_length hdne, hdl, hswlen]
    · exact (hcols d hd).2
  · intro f hf
    obtain ⟨r, hr⟩ := List.mem_iff_getElem?.mp hf
    rw [swapRemove_getElem? hilt] at hr
    by_cases hr1 : r + 1 < c.id.length
    · rw [if_pos hr1] at hr
      by_cases hri : r = i
      · rw [if_pos hri] at hr
        exact hfresh f (List.mem_iff_getElem?.mpr ⟨_, hr⟩)
      · rw [if_neg hri] at hr
        exact hfresh f (List.mem_iff_getElem?.mpr ⟨_, hr⟩)
    · rw [if_neg hr1] at hr
      exact absurd hr (by simp)

/-! ### Trace lemmas -/

theorem inv_mkChunk (k : Nat) : Inv (mkChunk k) := by
  refine ⟨?_, ?_, ?_, rfl, ?_, ?_⟩
  · intro p hp
    simp [mkChunk] at hp
  · intro r hr
    simp [mkChunk] at hr
  · simp [mkChunk]
  · intro col hcol
    simp [mkChunk, List.mem_replicate] at hcol
    rw [hcol.2]
    simp [mkChunk]
  · intro f hf
    simp [mkChunk] at hf

theorem spawnCount_append (l1 l2 : List Op) :
    spawnCount (l1 ++ l2) = spawnCount l1 + spawnCount l2 := by
  induction l1 with
  | nil => simp [spawnCount]
  | cons op rest ih =>
    cases op with
    | spawn =>
      simp [spawnCount, ih]
      omega
    | destroy e => simp [spawnCount, ih]

theorem runOps_append (c : Chunk) (l1 l2 : List Op) :
    runOps c (l1 ++ l2) = runOps (runOps c l1) l2 := by
  induction l1 generalizing c with
  | nil => rfl
  | cons op rest ih => simp [runOps, ih]

theorem inv_runOps (ops : List Op) :
    ∀ c : Chunk, Inv c → c.entity_id_generator + spawnCount ops < U64 →
      Inv (runOps c ops) ∧
      (runOps c ops).entity_id_generator = c.entity_id_generator + spawnCount ops := by
  induction ops with
  | nil =>
    intro c h _
    exact ⟨h, rfl⟩
  | cons op rest ih =>
    intro c h hb
    cases op with
    | spawn =>
      have hcnt : spawnCount (Op.spawn :: rest) = spawnCount rest + 1 := rfl
      rw [hcnt] at hb
      have hb1 : c.entity_id_generator + 1 < U64 := by omega
      obtain ⟨hinv2, _, hgen2, _, _⟩ := inv_spawn h hb1
      have hb2 : c.spawn.2.entity_id_generator + spawnCount rest < U64 := by
        rw [hgen2]
        omega
      have hrun : runOps c (Op.spawn :: rest) = runOps c.spawn.2 rest := rfl
      rw [hrun]
      obtain ⟨hi, hg⟩ := ih c.spawn.2 hinv2 hb2
      refine ⟨hi, ?_⟩
      rw [hg, hgen2, hcnt]
      omega
    | destroy f =>
      have hrun : runOps c (Op.destroy f :: rest) = runOps (c.destroy f).2 rest := rfl
      have hcnt : spawnCount (Op.destroy f :: rest) = spawnCount rest := rfl
      rw [hrun, hcnt] at *
      cases hld : lookupA c.indexes f with
      | none =>
        have heq := destroy_eq_of_none hld
        have hstate : (c.destroy f).2 = c := by rw [heq]
        rw [hstate]
        exact ih c h hb
      | some i =>
        obtain ⟨hinv2, _, _, hgen2⟩ := inv_destroy h hld
        have hb2 : (c.destroy f).2.entity_id_generator + spawnCount rest < U64 := by
          rw [hgen2]
          exact hb
        obtain ⟨hi, hg⟩ := ih (c.destroy f).2 hinv2 hb2
        refine ⟨hi, ?_⟩
        rw [hg, hgen2]

theorem lookup_destroy_none {c : Chunk} (h : Inv c) {f : Entity} {i : Nat}
    (hlf : lookupA c.indexes f = some i) {e : Entity}
    (hnone : lookupA c.indexes e = none) :
    lookupA (c.destroy f).2.indexes e = none := by
  have heq := destroy_ok_of_inv h hlf
  have hbij2 := bij_after_destroy h hlf
  have hilt : i < c.id.length := inv_lookup_lt h hlf
  rw [heq]
  cases hcase : lookupA
      (if i + 1 < c.id.length
        then insertA (removeA c.indexes f) (c.id.getLast?.getD 0) i
        else removeA c.indexes f) e with
  | none => rfl
  | some r =>
    have hg := (hbij2 e r).mp hcase
    rw [swapRemove_getElem? hilt] at hg
    by_cases hr1 : r + 1 < c.id.length
    · rw [if_pos hr1] at hg
      have hmem : e ∈ c.id := by
        by_cases hri : r = i
        · rw [if_pos hri] at hg
          exact List.mem_iff_getElem?.mpr ⟨_, hg⟩
        · rw [if_neg hri] at hg
          exact List.mem_iff_getElem?.mpr ⟨_, hg⟩
      obtain ⟨j, hj⟩ := inv_lookup_of_mem h hmem
      rw [hj] at hnone
      exact absurd hnone (by simp)
    · rw [if_neg hr1] at hg
      exact absurd hg (by simp)

theorem dead_preserved {e : Entity} (ops : List Op) :
    ∀ c : Chunk, Inv c → lookupA c.indexes e = none →
      e < c.entity_id_generator →
      c.entity_id_generator + spawnCount ops < U64 →
      lookupA (runOps c ops).indexes e = none ∧
      e < (runOps c ops).entity_id_generator ∧ Inv (runOps c ops) := by
  induction ops with
  | nil =>
    intro c h h1 h2 _
    exact ⟨h1, h2, h⟩
  | cons op rest ih =>
    intro c h h1 h2 hb
    cases op with
    | spawn =>
      have hcnt : spawnCount (Op.spawn :: rest) = spawnCount rest + 1 := rfl
      rw [hcnt] at hb
      have hb1 : c.entity_id_generator + 1 < U64 := by omega
      obtain ⟨hinv2, _, hgen2, _, hidx2⟩ := inv_spawn h hb1
      have hrun : runOps c (Op.spawn :: rest) = runOps c.spawn.2 rest := rfl
      rw [hrun]
      apply ih c.spawn.2 hinv2
      · rw [hidx2]
        have hne : e ≠ c.entity_id_generator := Nat.ne_of_lt h2
        rw [lookupA_insertA_ne hne]
        exact h1
      · rw [hgen2]
        exact Nat.lt_succ_of_lt h2
      · rw [hgen2]
        omega
    | destroy f =>
      have hrun : runOps c (Op.destroy f :: rest) = runOps (c.destroy f).2 rest := rfl
      have hcnt : spawnCount (Op.destroy f :: rest) = spawnCount rest := rfl
      rw [hrun]
      rw [hcnt] at hb
      cases hld : lookupA c.indexes f with
      | none =>
        have heq := destroy_eq_of_none hld
        have hstate : (c.destroy f).2 = c := by rw [heq]
        rw [hstate]
        exact ih c h h1 h2 hb
      | some i =>
        obtain ⟨hinv2, _, _, hgen2⟩ := inv_destroy h hld
        apply ih (c.destroy f).2 hinv2
        · exact lookup_destroy_none h hld h1
        · rw [hgen2]
          exact h2
        · rw [hgen2]
          exact hb

/-! ### Command-queue lemmas -/

theorem flush_append_of_ok (pre : List Cmd) :
    ∀ (c : Chunk) (r : Res) (s : Chunk × Res),
      flush pre c r = (s, [], none) →
      ∀ rest, flush (pre ++ rest) c r = flush rest s.1 s.2 := by
  induction pre with
  | nil =>
    intro c r s h rest
    have hs : (c, r) = s := by
      have := congrArg Prod.fst h
      simpa [flush] using this
    rw [← hs]
    rfl
  | cons cmd pre2 ih =>
    intro c r s h rest
    cases hc : cmd c r with
    | error e =>
      rw [flush, hc] at h
      have := congrArg (fun out => out.2.2) h
      simp at this
    | ok s2 =>
      rw [flush, hc] at h
      have hstep : flush ((cmd :: pre2) ++ rest) c r = flush (pre2 ++ rest) s2.1 s2.2 := by
        rw [List.cons_append, flush, hc]
      rw [hstep]
      exact ih s2.1 s2.2 s h rest

theorem flush_rem_nil_of_none (q : List Cmd) :
    ∀ (c : Chunk) (r : Res) (s : Chunk × Res) (rem : List Cmd),
      flush q c r = (s, rem, none) → rem = [] := by
  induction q with
  | nil =>
    intro c r s rem h
    have := congrArg (fun out => out.2.1) h
    simpa [flush] using this
  | cons cmd q2 ih =>
    intro c r s rem h
    cases hc : cmd c r with
    | error e =>
      rw [flush, hc] at h
      have := congrArg (fun out => out.2.2) h
      simp at this
    | ok s2 =>
      rw [flush, hc] at h
      exact ih s2.1 s2.2 s rem h

/-! ### Query lemmas -/

theorem pairIter_getD (a : List (Option α)) :
    ∀ (b : List (Option β)) (i : Nat),
      (pairIter a b).getD i none = optZip (a.getD i none) (b.getD i none) := by
  induction a with
  | nil =>
    intro b i
    show (List.getD [] i none : Option (α × β)) = _
    cases hb : b.getD i none with
    | none => simp [List.getD, optZip]
    | some y => simp [List.getD, optZip]
  | cons x a2 ih =>
    intro b i
    cases b with
    | nil =>
      show (List.getD [] i none : Option (α × β)) = _
      cases hx : (x :: a2).getD i none with
      | none => simp [List.getD, optZip]
      | some y => simp [List.getD, optZip]
    | cons y b2 =>
      cases i with
      | zero => rfl
      | succ n =>
        show (pairIter a2 b2).getD n none = _
        exact ih b2 n

/-! ### Borrow-acquisition unfolding lemmas -/

theorem components_ref_not_registered {c : Chunk} {t : Nat} (h : c.cols[t]? = none) :
    components_ref c t = .error .ComponentNotRegistered := by
  simp [components_ref, h]

theorem components_ref_busy {c : Chunk} {t : Nat} {col : Column}
    (h : c.cols[t]? = some col) (hb : tryRead col.borrow = none) :
    components_ref c t = .error .ComponentAlreadyBorrowedMutably := by
  simp [components_ref, h, hb]

theorem components_ref_acquired {c : Chunk} {t : Nat} {col : Column} {b : Borrow}
    (h : c.cols[t]? = some col) (hb : tryRead col.borrow = some b) :
    components_ref c t = .ok { c with cols := c.cols.set t ⟨b, col.data⟩ } := by
  simp [components_ref, h, hb]

theorem components_mut_not_registered {c : Chunk} {t : Nat} (h : c.cols[t]? = none) :
    components_mut c t = .error .ComponentNotRegistered := by
  simp [components_mut, h]

theorem components_mut_busy {c : Chunk} {t : Nat} {col : Column}
    (h : c.cols[t]? = some col) (hb : tryWrite col.borrow = none) :
    components_mut c t = .error .ComponentAlreadyBorrowedMutably := by
  simp [components_mut, h, hb]

theorem components_mut_acquired {c : Chunk} {t : Nat} {col : Column} {b : Borrow}
    (h : c.cols[t]? = some col) (hb : tryWrite col.borrow = some b) :
    components_mut c t = .ok { c with cols := c.cols.set t ⟨b, col.data⟩ } := by
  simp [components_mut, h, hb]

/-! ### Parameter-resolution lemmas -/

theorem get_params_cons (p : ParamSpec) (rest : List ParamSpec) (s : Chunk × Bool) :
    get_params (p :: rest) s = (get_param p s).bind (get_params rest) := rfl

theorem get_param_compRef_eq (t : Nat) (c : Chunk) (ql : Bool) :
    get_param (.compRef t) (c, ql) = (components_ref c t).map (fun c2 => (c2, ql)) := rfl

theorem get_param_compMut_eq (t : Nat) (c : Chunk) (ql : Bool) :
    get_param (.compMut t) (c, ql) = (components_mut c t).map (fun c2 => (c2, ql)) := rfl

theorem get_param_commands_eq (c : Chunk) (ql : Bool) :
    get_param .commands (c, ql) =
      if ql then .error .CommandQueueAlreadyBorrowedMutably else .ok (c, true) := rfl

theorem get_params_exclusive_stable (l : List ParamSpec) :
    ∀ (c : Chunk) (ql : Bool) (c2 : Chunk) (ql2 : Bool) (t : Nat) (col : Column),
      get_params l (c, ql) = .ok (c2, ql2) →
      c.cols[t]? = some col → col.borrow = .exclusive →
      ∃ col2, c2.cols[t]? = some col2 ∧ col2.borrow = .exclusive := by
  induction l with
  | nil =>
    intro c ql c2 ql2 t col h hcol hb
    have hcc : c = c2 := congrArg (fun s => s.1) (Except.ok.inj h)
    exact ⟨col, hcc ▸ hcol, hb⟩
  | cons p rest ih =>
    intro c ql c2 ql2 t col h hcol hb
    cases p with
    | entities => exact ih c ql c2 ql2 t col h hcol hb
    | compRef u =>
      rw [get_params_cons, get_param_compRef_eq] at h
      cases hu : c.cols[u]? with
      | none =>
        rw [components_ref_not_registered hu] at h
        exact Except.noConfusion h
      | some colu =>
        by_cases htu : u = t
        · subst htu
          rw [hu] at hcol
          have hcu : colu = col := Option.some_inj.mp hcol
          have hbusy : tryRead colu.borrow = none := by
            rw [hcu, hb]
            rfl
          rw [components_ref_busy hu hbusy] at h
          exact Except.noConfusion h
        · cases htr : tryRead colu.borrow with
          | none =>
            rw [components_ref_busy hu htr] at h
            exact Except.noConfusion h
          | some b2 =>
            rw [components_ref_acquired hu htr] at h
            have hstep : get_params rest
                ({ c with cols := c.cols.set u ⟨b2, colu.data⟩ }, ql) = .ok (c2, ql2) := h
            apply ih _ ql c2 ql2 t col hstep _ hb
            show (c.cols.set u ⟨b2, colu.data⟩)[t]? = some col
            rw [List.getElem?_set_ne htu]
            exact hcol
    | compMut u =>
      rw [get_params_cons, get_param_compMut_eq] at h
      cases hu : c.cols[u]? with
      | none =>
        rw [components_mut_not_registered hu] at h
        exact Except.noConfusion h
      | some colu =>
        by_cases htu : u = t
        · subst htu
          rw [hu] at hcol
          have hcu : colu = col := Option.some_inj.mp hcol
          have hbusy : tryWrite colu.borrow = none := by
            rw [hcu, hb]
            rfl
          rw [components_mut_busy hu hbusy] at h
          exact Except.noConfusion h
        · cases htr : tryWrite colu.borrow with
          | none =>
            rw [components_mut_busy hu htr] at h
            exact Except.noConfusion h
          | some b2 =>
            rw [components_mut_acquired hu htr] at h
            have hstep : get_params rest
                ({ c with cols := c.cols.set u ⟨b2, colu.data⟩ }, ql) = .ok (c2, ql2) := h
            apply ih _ ql c2 ql2 t col hstep _ hb
            show (c.cols.set u ⟨b2, colu.data⟩)[t]? = some col
            rw [List.getElem?_set_ne htu]
            exact hcol
    | commands =>
      rw [get_params_cons, get_param_commands_eq] at h
      cases hql : ql with
      | true =>
        rw [hql, if_pos rfl] at h
        exact Except.noConfusion h
      | false =>
        rw [hql] at h
        have hstep : get_params rest (c, true) = .ok (c2, ql2) := h
        exact ih c true c2 ql2 t col hstep hcol hb

theorem tryWrite_some {bo b : Borrow} (h : tryWrite bo = some b) :
    bo = .free ∧ b = .exclusive := by
  cases bo with
  | free => exact ⟨rfl, (Option.some_inj.mp h).symm⟩
  | shared n => exact Option.noConfusion h
  | exclusive => exact Option.noConfusion h

theorem tryRead_some {bo b : Borrow} (h : tryRead bo = some b) :
    ∃ n, b = .shared n ∧ 0 < n := by
  cases bo with
  | free => exact ⟨1, (Option.some_inj.mp h).symm, Nat.one_pos⟩
  | shared n => exact ⟨n + 1, (Option.some_inj.mp h).symm, Nat.succ_pos n⟩
  | exclusive => exact Option.noConfusion h

theorem get_params_shared_stable (l : List ParamSpec) :
    ∀ (c : Chunk) (ql : Bool) (c2 : Chunk) (ql2 : Bool) (t : Nat) (col : Column) (n : Nat),
      get_params l (c, ql) = .ok (c2, ql2) →
      c.cols[t]? = some col → col.borrow = .shared n → 0 < n →
      ∃ col2 m, c2.cols[t]? = some col2 ∧ col2.borrow = .shared m ∧ 0 < m := by
  induction l with
  | nil =>
    intro c ql c2 ql2 t col n h hcol hb hn
    have hcc : c = c2 := congrArg (fun s => s.1) (Except.ok.inj h)
    exact ⟨col, n, hcc ▸ hcol, hb, hn⟩
  | cons p rest ih =>
    intro c ql c2 ql2 t col n h hcol hb hn
    cases p with
    | entities => exact ih c ql c2 ql2 t col n h hcol hb hn
    | compRef u =>
      rw [get_params_cons, get_param_compRef_eq] at h
      cases hu : c.cols[u]? with
      | none =>
        rw [components_ref_not_registered hu] at h
        exact Except.noConfusion h
      | some colu =>
        by_cases htu : u = t
        · subst htu
          rw [hu] at hcol
          have hcu : colu = col := Option.some_inj.mp hcol
          have hread : tryRead colu.borrow = some (.shared (n + 1)) := by
            rw [hcu, hb]
            rfl
          rw [components_ref_acquired hu hread] at h
          have hstep : get_params rest
              ({ c with cols := c.cols.set u ⟨.shared (n + 1), colu.data⟩ }, ql)
              = .ok (c2, ql2) := h
          have hlt : u < c.cols.length := (List.getElem?_eq_some.mp hu).1
          apply ih _ ql c2 ql2 u ⟨.shared (n + 1), colu.data⟩ (n + 1) hstep ?_ rfl
            (Nat.succ_pos n)
          show (c.cols.set u ⟨.shared (n + 1), colu.data⟩)[u]? = some _
          rw [List.getElem?_set_self (by simpa using hlt)]
        · cases htr : tryRead colu.borrow with
          | none =>
            rw [components_ref_busy hu htr] at h
            exact Except.noConfusion h
          | some b2 =>
            rw [components_ref_acquired hu htr] at h
            have hstep : get_params rest
                ({ c with cols := c.cols.set u ⟨b2, colu.data⟩ }, ql) = .ok (c2, ql2) := h
            apply ih _ ql c2 ql2 t col n hstep ?_ hb hn
            show (c.cols.set u ⟨b2, colu.data⟩)[t]? = some col
            rw [List.getElem?_set_ne htu]
            exact hcol
    | compMut u =>
      rw [get_params_cons, get_param_compMut_eq] at h
      cases hu : c.cols[u]? with
      | none =>
        rw [components_mut_not_registered hu] at h
        exact Except.noConfusion h
      | some colu =>
        by_cases htu : u = t
        · subst htu
          rw [hu] at hcol
          have hcu : colu = col := Option.some_inj.mp hcol
          have hbusy : tryWrite colu.borrow = none := by
            rw [hcu, hb]
            rfl
          rw [components_mut_busy hu hbusy] at h
          exact Except.noConfusion h
        · cases htr : tryWrite colu.borrow with
          | none =>
            rw [components_mut_busy hu htr] at h
            exact Except.noConfusion h
          | some b2 =>
            rw [components_mut_acquired hu htr] at h
            have hstep : get_params rest
                ({ c with cols := c.cols.set u ⟨b2, colu.data⟩ }, ql) = .ok (c2, ql2) := h
            apply ih _ ql c2 ql2 t col n hstep ?_ hb hn
            show (c.cols.set u ⟨b2, colu.data⟩)[t]? = some col
            rw [List.getElem?_set_ne htu]
            exact hcol
    | commands =>
      rw [get_params_cons, get_param_commands_eq] at h
      cases hql : ql with
      | true =>
        rw [hql, if_pos rfl] at h
        exact Except.noConfusion h
      | false =>
        rw [hql] at h
        have hstep : get_params rest (c, true) = .ok (c2, ql2) := h
        exact ih c true c2 ql2 t col n hstep hcol hb hn

theorem get_params_ql_stable (l : List ParamSpec) :
    ∀ (c : Chunk) (c2 : Chunk) (ql2 : Bool),
      get_params l (c, true) = .ok (c2, ql2) → ql2 = true := by
  induction l with
  | nil =>
    intro c c2 ql2 h
    exact (congrArg (fun s => s.2) (Except.ok.inj h)).symm
  | cons p rest ih =>
    intro c c2 ql2 h
    cases p with
    | entities => exact ih c c2 ql2 h
    | compRef u =>
      rw [get_params_cons, get_param_compRef_eq] at h
      cases hu : c.cols[u]? with
      | none =>
        rw [components_ref_not_registered hu] at h
        exact Except.noConfusion h
      | some colu =>
        cases htr : tryRead colu.borrow with
        | none =>
          rw [components_ref_busy hu htr] at h
          exact Except.noConfusion h
        | some b2 =>
          rw [components_ref_acquired hu htr] at h
          exact ih _ c2 ql2 h
    | compMut u =>
      rw [get_params_cons, get_param_compMut_eq] at h
      cases hu : c.cols[u]? with
      | none =>
        rw [components_mut_not_registered hu] at h
        exact Except.noConfusion h
      | some colu =>
        cases htr : tryWrite colu.borrow with
        | none =>
          rw [components_mut_busy hu htr] at h
          exact Except.noConfusion h
        | some b2 =>
          rw [components_mut_acquired hu htr] at h
          exact ih _ c2 ql2 h
    | commands =>
      rw [get_params_cons, get_param_commands_eq, if_pos rfl] at h
      exact Except.noConfusion h

theorem get_params_borrows_live (l : List ParamSpec) :
    ∀ (c : Chunk) (ql : Bool) (c2 : Chunk) (ql2 : Bool),
      get_params l (c, ql) = .ok (c2, ql2) →
      (∀ t, ParamSpec.compMut t ∈ l →
        ∃ col2, c2.cols[t]? = some col2 ∧ col2.borrow = .exclusive) ∧
      (∀ t, ParamSpec.compRef t ∈ l →
        ∃ col2 n, c2.cols[t]? = some col2 ∧ col2.borrow = .shared n ∧ 0 < n) ∧
      (ParamSpec.commands ∈ l → ql2 = true) := by
  induction l with
  | nil =>
    intro c ql c2 ql2 _
    refine ⟨?_, ?_, ?_⟩
    · intro t hm
      simp at hm
    · intro t hm
      simp at hm
    · intro hm
      simp at hm
  | cons p rest ih =>
    intro c ql c2 ql2 h
    cases p with
    | entities =>
      obtain ⟨h1, h2, h3⟩ := ih c ql c2 ql2 h
      refine ⟨?_, ?_, ?_⟩
      · intro t hm
        rcases List.mem_cons.mp hm with heq | hm2
        · exact ParamSpec.noConfusion heq
        · exact h1 t hm2
      · intro t hm
        rcases List.mem_cons.mp hm with heq | hm2
        · exact ParamSpec.noConfusion heq
        · exact h2 t hm2
      · intro hm
        rcases List.mem_cons.mp hm with heq | hm2
        · exact ParamSpec.noConfusion heq
        · exact h3 hm2
    | compRef u =>
      rw [get_params_cons, get_param_compRef_eq] at h
      cases hu : c.cols[u]? with
      | none =>
        rw [components_ref_not_registered hu] at h
        exact Except.noConfusion h
      | some colu =>
        cases htr : tryRead colu.borrow with
        | none =>
          rw [components_ref_busy hu htr] at h
          exact Except.noConfusion h
        | some b2 =>
          rw [components_ref_acquired hu htr] at h
          have hstep : get_params rest
              ({ c with cols := c.cols.set u ⟨b2, colu.data⟩ }, ql) = .ok (c2, ql2) := h
          obtain ⟨h1, h2, h3⟩ := ih _ ql c2 ql2 hstep
          have hlt : u < c.cols.length := (List.getElem?_eq_some.mp hu).1
          obtain ⟨n, hbn, hnpos⟩ := tryRead_some htr
          refine ⟨?_, ?_, ?_⟩
          · intro t hm
            rcases List.mem_cons.mp hm with heq | hm2
            · exact ParamSpec.noConfusion heq
            · exact h1 t hm2
          · intro t hm
            rcases List.mem_cons.mp hm with heq | hm2
            · have htu : t = u := by
                cases heq
                rfl
              subst htu
              apply get_params_shared_stable rest _ ql c2 ql2 t
                ⟨b2, colu.data⟩ n hstep ?_ ?_ hnpos
              · show (c.cols.set t ⟨b2, colu.data⟩)[t]? = some _
                rw [List.getElem?_set_self (by simpa using hlt)]
              · exact hbn
            · exact h2 t hm2
          · intro hm
            rcases List.mem_cons.mp hm with heq | hm2
            · exact ParamSpec.noConfusion heq
            · exact h3 hm2
    | compMut u =>
      rw [get_params_cons, get_param_compMut_eq] at h
      cases hu : c.cols[u]? with
      | none =>
        rw [components_mut_not_registered hu] at h
        exact Except.noConfusion h
      | some colu =>
        cases htr : tryWrite colu.borrow with
        | none =>
          rw [components_mut_busy hu htr] at h
          exact Except.noConfusion h
        | some b2 =>
          rw [components_mut_acquired hu htr] at h
          have hstep : get_params rest
              ({ c with cols := c.cols.set u ⟨b2, colu.data⟩ }, ql) = .ok (c2, ql2) := h
          obtain ⟨h1, h2, h3⟩ := ih _ ql c2 ql2 hstep
          have hlt : u < c.cols.length := (List.getElem?_eq_some.mp hu).1
          have hbex : b2 = .exclusive := (tryWrite_some htr).2
          refine ⟨?_, ?_, ?_⟩
          · intro t hm
            rcases List.mem_cons.mp hm with heq | hm2
            · have htu : t = u := by
                cases heq
                rfl
              subst htu
              apply get_params_exclusive_stable rest _ ql c2 ql2 t
                ⟨b2, colu.data⟩ hstep ?_ hbex
              show (c.cols.set t ⟨b2, colu.data⟩)[t]? = some _
              rw [List.getElem?_set_self (by simpa using hlt)]
            · exact h1 t hm2
          · intro t hm
            rcases List.mem_cons.mp hm with heq | hm2
            · exact ParamSpec.noConfusion heq
            · exact h2 t hm2
          · intro hm
            rcases List.mem_cons.mp hm with heq | hm2
            · exact ParamSpec.noConfusion heq
            · exact h3 hm2
    | commands =>
      rw [get_params_cons, get_param_commands_eq] at h
      cases hql : ql with
      | true =>
        rw [hql, if_pos rfl] at h
        exact Except.noConfusion h
      | false =>
        rw [hql] at h
        have hstep : get_params rest (c, true) = .ok (c2, ql2) := h
        obtain ⟨h1, h2, h3⟩ := ih c true c2 ql2 hstep
        refine ⟨?_, ?_, ?_⟩
        · intro t hm
          rcases List.mem_cons.mp hm with heq | hm2
          · exact ParamSpec.noConfusion heq
          · exact h1 t hm2
        · intro t hm
          rcases List.mem_cons.mp hm with heq | hm2
          · exact ParamSpec.noConfusion heq
          · exact h2 t hm2
        · intro _
          exact get_params_ql_stable rest c c2 ql2 hstep

theorem get_params_append (l1 l2 : List ParamSpec) :
    ∀ s, get_params (l1 ++ l2) s = (get_params l1 s).bind (get_params l2) := by
  induction l1 with
  | nil =>
    intro s
    rfl
  | cons p rest ih =>
    intro s
    rw [List.cons_append, get_params_cons, get_params_cons]
    cases hp : get_param p s with
    | error er => rfl
    | ok s2 =>
      show get_params (rest ++ l2) s2 = (get_params rest s2).bind (get_params l2)
      exact ih s2

/-! ## Claim theorems -/

/-- C1: for every sequence of `Chunk::spawn` / `Chunk::destroy` operations
(within the `u64` identifier space), after each operation the number of live
entities — the length of the dense entity sequence — equals the size of the
entity index map, and the length of every registered component column equals
that count. -/
theorem C1_spawn_destroy_alignment (k : Nat) (ops : List Op)
    (hb : spawnCount ops < U64) :
    (runOps (mkChunk k) ops).indexes.length = (runOps (mkChunk k) ops).id.length ∧
    (∀ col ∈ (runOps (mkChunk k) ops).cols,
      col.data.length = (runOps (mkChunk k) ops).id.length) := by
  have h := (inv_runOps ops (mkChunk k) (inv_mkChunk k) (by simpa [mkChunk] using hb)).1
  exact ⟨h.2.2.2.1, fun col hc => (h.2.2.2.2.1 col hc).1⟩

theorem C1_spawn_destroy_alignment_witness :
    spawnCount [Op.spawn, Op.spawn, Op.destroy 0] < U64 ∧
    ((runOps (mkChunk 1) [Op.spawn, Op.spawn, Op.destroy 0]).indexes.length
      = (runOps (mkChunk 1) [Op.spawn, Op.spawn, Op.destroy 0]).id.length ∧
    (∀ col ∈ (runOps (mkChunk 1) [Op.spawn, Op.spawn, Op.destroy 0]).cols,
      col.data.length
        = (runOps (mkChunk 1) [Op.spawn, Op.spawn, Op.destroy 0]).id.length)) :=
  ⟨by decide, C1_spawn_destroy_alignment 1 [Op.spawn, Op.spawn, Op.destroy 0] (by decide)⟩

/-- C10: in every store reachable through the public spawn/destroy operations,
the row produced by an index lookup is strictly below the dense sequence's
length and below every column's length (so the raw indexing in
`ComponentsImpl::set`/`get`/`get_mut`/`swap_remove` is in bounds), and a
non-empty index forces a non-empty dense sequence (so the `unwrap` of the
last dense entity inside `destroy` cannot fail). -/
theorem C10_reachable_no_panic (k : Nat) (ops : List Op) (e : Entity) (i : Nat)
    (hb : spawnCount ops < U64) :
    (lookupA (runOps (mkChunk k) ops).indexes e = some i →
      i < (runOps (mkChunk k) ops).id.length ∧
      (∀ col ∈ (runOps (mkChunk k) ops).cols, i < col.data.length) ∧
      (runOps (mkChunk k) ops).id.getLast?.isSome = true) ∧
    ((runOps (mkChunk k) ops).indexes ≠ [] → (runOps (mkChunk k) ops).id ≠ []) := by
  have h := (inv_runOps ops (mkChunk k) (inv_mkChunk k) (by simpa [mkChunk] using hb)).1
  constructor
  · intro hl
    have hlt := inv_lookup_lt h hl
    refine ⟨hlt, ?_, ?_⟩
    · intro col hc
      rw [(h.2.2.2.2.1 col hc).1]
      exact hlt
    · have hne : (runOps (mkChunk k) ops).id ≠ [] := by
        intro hc
        rw [hc] at hlt
        simp at hlt
      simpa [List.getLast?_isSome] using hne
  · intro hne hc
    apply hne
    have hlen := h.2.2.2.1
    rw [hc] at hlen
    simp at hlen
    exact hlen

theorem C10_reachable_no_panic_witness :
    spawnCount [Op.spawn] < U64 ∧
    ((lookupA (runOps (mkChunk 1) [Op.spawn]).indexes 0 = some 0 →
      0 < (runOps (mkChunk 1) [Op.spawn]).id.length ∧
      (∀ col ∈ (runOps (mkChunk 1) [Op.spawn]).cols, 0 < col.data.length) ∧
      (runOps (mkChunk 1) [Op.spawn]).id.getLast?.isSome = true) ∧
    ((runOps (mkChunk 1) [Op.spawn]).indexes ≠ [] →
      (runOps (mkChunk 1) [Op.spawn]).id ≠ [])) :=
  ⟨by decide, C10_reachable_no_panic 1 [Op.spawn] 0 0 (by decide)⟩

/-- C2: for every store satisfying the alignment invariant and every known
entity, `destroy` succeeds and removes the entity's row by swap-with-last:
its index entry is erased, the dense sequence and every column are
swap-removed at the freed row, the previously last entity is re-indexed at
the freed row (and its value moved there in every column) exactly when the
destroyed row was not the last, destroying the last-remaining entity leaves
the index empty without reinserting anything, and destroying an unknown
identifier fails with `InvalidEntity` leaving the store unchanged.  In the
spec's scenario — spawn A,B,C as rows 0,1,2, destroy B — A keeps row 0 and C
moves to row 1. -/
theorem C2_destroy_swap_with_last {c : Chunk} (h : Inv c) (e : Entity) (i : Nat) :
    (lookupA c.indexes e = some i →
      (c.destroy e).1 = .ok () ∧
      (c.destroy e).2.id = swapRemove c.id i ∧
      (c.destroy e).2.cols
        = c.cols.map (fun col => ⟨col.borrow, swapRemove col.data i⟩) ∧
      lookupA (c.destroy e).2.indexes e = none ∧
      (i + 1 < c.id.length →
        lookupA (c.destroy e).2.indexes (c.id.getLast?.getD 0) = some i ∧
        ∀ col ∈ c.cols,
          (swapRemove col.data i)[i]? = col.data[c.id.length - 1]?) ∧
      (c.id.length = 1 → (c.destroy e).2.indexes = [])) ∧
    (lookupA c.indexes e = none → c.destroy e = (.error (.InvalidEntity e), c)) ∧
    (((runOps (mkChunk 1) [Op.spawn, Op.spawn, Op.spawn]).destroy 1).1 = .ok () ∧
      lookupA ((runOps (mkChunk 1) [Op.spawn, Op.spawn, Op.spawn]).destroy 1).2.indexes 0
        = some 0 ∧
      lookupA ((runOps (mkChunk 1) [Op.spawn, Op.spawn, Op.spawn]).destroy 1).2.indexes 2
        = some 1) := by
  refine ⟨?_, destroy_eq_of_none, by decide⟩
  intro hl
  have hilt : i < c.id.length := inv_lookup_lt h hl
  have heq := destroy_ok_of_inv h hl
  have hbij2 := bij_after_destroy h hl
  have hne : c.id ≠ [] := by
    intro hc
    rw [hc] at hilt
    simp at hilt
  obtain ⟨lastx, hlx⟩ : ∃ x, c.id[c.id.length - 1]? = some x := by
    have hl1 : c.id.length - 1 < c.id.length := by omega
    rw [List.getElem?_eq_getElem hl1]
    exact ⟨_, rfl⟩
  have hgetD : c.id.getLast?.getD 0 = lastx := by
    rw [List.getLast?_eq_getElem? _, hlx]
    rfl
  obtain ⟨hinv2, hok2, hnone2, hgen2⟩ := inv_destroy h hl
  refine ⟨by rw [heq], by rw [heq], by rw [heq], hnone2, ?_, ?_⟩
  · intro hcase
    constructor
    · rw [heq]
      apply (hbij2 (c.id.getLast?.getD 0) i).mpr
      rw [swapRemove_getElem? hilt, if_pos hcase, if_pos rfl, hgetD]
      exact hlx
    · intro col hc
      have hdl : col.data.length = c.id.length := (h.2.2.2.2.1 col hc).1
      have hdi : i < col.data.length := by omega
      rw [swapRemove_getElem? hdi, hdl, if_pos hcase, if_pos rfl]
  · intro hone
    rw [heq]
    show (if i + 1 < c.id.length then _ else _ : List (Entity × Nat)) = []
    have hnotlt : ¬ i + 1 < c.id.length := by omega
    rw [if_neg hnotlt]
    have hrem : (removeA c.indexes e).length + 1 = c.indexes.length :=
      length_removeA_of_some h.2.2.1 hl
    have hilen : c.indexes.length = c.id.length := h.2.2.2.1
    have : (removeA c.indexes e).length = 0 := by omega
    exact List.length_eq_zero.mp this

theorem C2_destroy_swap_with_last_witness :
    Inv (runOps (mkChunk 1) [Op.spawn, Op.spawn]) ∧
    lookupA (runOps (mkChunk 1) [Op.spawn, Op.spawn]).indexes 0 = some 0 ∧
    ((runOps (mkChunk 1) [Op.spawn, Op.spawn]).destroy 0).1 = .ok () := by
  have hinv : Inv (runOps (mkChunk 1) [Op.spawn, Op.spawn]) := by decide
  have hl : lookupA (runOps (mkChunk 1) [Op.spawn, Op.spawn]).indexes 0 = some 0 := by
    decide
  exact ⟨hinv, hl, ((C2_destroy_swap_with_last hinv 0 0).1 hl).1⟩

/-- C8: entity identifiers are assigned monotonically starting at 0 — the
next spawn after a trace returns exactly the number of spawns so far — and
never reused: after a successful destroy of `e`, at every later point of any
continuation trace the index lookup of `e` fails, destroying `e` again fails
with `InvalidEntity`, `add_component` on `e` fails with `InvalidEntity`,
component reads of `e` yield nothing, and the generator stays strictly above
`e` while every spawn returns the current generator value — so no later spawn
of this store returns `e` (all within the `u64` identifier space). -/
theorem C8_ids_monotone_never_reused (k : Nat) (ops1 ops2 : List Op) (e : Entity)
    (hb : spawnCount ops1 + spawnCount ops2 < U64)
    (hlive : ∃ i, lookupA (runOps (mkChunk k) ops1).indexes e = some i) :
    (runOps (mkChunk k) ops1).spawn.1 = .ok (spawnCount ops1) ∧
    ((runOps (mkChunk k) ops1).destroy e).1 = .ok () ∧
    (∀ pre post, ops2 = pre ++ post →
      lookupA (runOps ((runOps (mkChunk k) ops1).destroy e).2 pre).indexes e = none ∧
      e < (runOps ((runOps (mkChunk k) ops1).destroy e).2 pre).entity_id_generator ∧
      (runOps ((runOps (mkChunk k) ops1).destroy e).2 pre).spawn.1
        = .ok (runOps ((runOps (mkChunk k) ops1).destroy e).2 pre).entity_id_generator ∧
      ((runOps ((runOps (mkChunk k) ops1).destroy e).2 pre).destroy e).1
        = .error (.InvalidEntity e) ∧
      (∀ t v, (runOps ((runOps (mkChunk k) ops1).destroy e).2 pre).add_component t e v
        = .error (.InvalidEntity e)) ∧
      (∀ t, (runOps ((runOps (mkChunk k) ops1).destroy e).2 pre).get_component t e
        = none)) := by
  obtain ⟨i, hl⟩ := hlive
  have hb1 : (mkChunk k).entity_id_generator + spawnCount ops1 < U64 := by
    show 0 + spawnCount ops1 < U64
    omega
  obtain ⟨hinv1, hgen1⟩ := inv_runOps ops1 (mkChunk k) (inv_mkChunk k) hb1
  have hfree1 : ∀ col ∈ (runOps (mkChunk k) ops1).cols, col.borrow = .free :=
    fun col hc => (hinv1.2.2.2.2.1 col hc).2
  have hspawn1 := spawn_eq_of_free hfree1
  obtain ⟨hinv2, hok2, hnone2, hgen2⟩ := inv_destroy hinv1 hl
  refine ⟨?_, hok2, ?_⟩
  · rw [hspawn1]
    show Except.ok (runOps (mkChunk k) ops1).entity_id_generator
      = Except.ok (spawnCount ops1)
    rw [hgen1]
    show Except.ok (0 + spawnCount ops1) = Except.ok (spawnCount ops1)
    rw [Nat.zero_add]
  · intro pre post hops
    have helt : e < (runOps (mkChunk k) ops1).entity_id_generator :=
      hinv1.2.2.2.2.2 e (inv_mem_of_lookup hinv1 hl)
    have hbpre : ((runOps (mkChunk k) ops1).destroy e).2.entity_id_generator
        + spawnCount pre < U64 := by
      rw [hgen2, hgen1]
      have hsum : spawnCount ops2 = spawnCount pre + spawnCount post := by
        rw [hops, spawnCount_append]
      show 0 + spawnCount ops1 + spawnCount pre < U64
      omega
    obtain ⟨hd1, hd2, hd3⟩ := dead_preserved pre _ hinv2 hnone2
      (by rw [hgen2]; exact helt) hbpre
    have hfree3 : ∀ col ∈
        (runOps ((runOps (mkChunk k) ops1).destroy e).2 pre).cols,
        col.borrow = .free :=
      fun col hc => (hd3.2.2.2.2.1 col hc).2
    refine ⟨hd1, hd2, ?_, ?_, ?_, ?_⟩
    · rw [spawn_eq_of_free hfree3]
    · rw [destroy_eq_of_none hd1]
    · intro t v
      simp [Chunk.add_component, hd1]
    · intro t
      simp [Chunk.get_component, hd1]

theorem C8_ids_monotone_never_reused_witness :
    (spawnCount [Op.spawn] + spawnCount ([] : List Op) < U64) ∧
    (∃ i, lookupA (runOps (mkChunk 1) [Op.spawn]).indexes 0 = some i) ∧
    ((runOps (mkChunk 1) [Op.spawn]).destroy 0).1 = .ok () := by
  refine ⟨by decide, ⟨0, by decide⟩, ?_⟩
  exact (C8_ids_monotone_never_reused 1 [Op.spawn] [] 0 (by decide) ⟨0, by decide⟩).2.1

/-- C4: requesting a shared column view while an exclusive borrow of that
type is outstanding fails with `ComponentAlreadyBorrowedMutably`; requesting
an exclusive view while any borrow (shared or exclusive) of that type is
outstanding fails with the same error; two simultaneous shared views succeed
(leaving two readers recorded); and either view of a type never registered at
build time fails with `ComponentNotRegistered`. -/
theorem C4_borrow_rules (c : Chunk) (t : Nat) :
    (∀ col, c.cols[t]? = some col → col.borrow = .exclusive →
      components_ref c t = .error .ComponentAlreadyBorrowedMutably) ∧
    (∀ col, c.cols[t]? = some col → col.borrow ≠ .free →
      components_mut c t = .error .ComponentAlreadyBorrowedMutably) ∧
    (∀ col, c.cols[t]? = some col → col.borrow = .free →
      ∃ c2 c3, components_ref c t = .ok c2 ∧ components_ref c2 t = .ok c3 ∧
        c3.cols[t]? = some ⟨.shared 2, col.data⟩) ∧
    (c.cols[t]? = none →
      components_ref c t = .error .ComponentNotRegistered ∧
      components_mut c t = .error .ComponentNotRegistered) := by
  refine ⟨?_, ?_, ?_, ?_⟩
  · intro col hcol hb
    apply components_ref_busy hcol
    rw [hb]
    rfl
  · intro col hcol hb
    apply components_mut_busy hcol
    cases hcase : col.borrow with
    | free => exact absurd hcase hb
    | shared n => rfl
    | exclusive => rfl
  · intro col hcol hb
    have hlt : t < c.cols.length := (List.getElem?_eq_some.mp hcol).1
    have h1 : tryRead col.borrow = some (.shared 1) := by
      rw [hb]
      rfl
    have heq1 := components_ref_acquired hcol h1
    have hcol2 : ({ c with cols := c.cols.set t ⟨.shared 1, col.data⟩ } : Chunk).cols[t]?
        = some ⟨.shared 1, col.data⟩ := by
      show (c.cols.set t ⟨.shared 1, col.data⟩)[t]? = some ⟨.shared 1, col.data⟩
      rw [List.getElem?_set_self hlt]
    have h2 : tryRead (Column.mk (.shared 1) col.data).borrow = some (.shared 2) := rfl
    have heq2 := components_ref_acquired hcol2 h2
    refine ⟨_, _, heq1, heq2, ?_⟩
    show ((c.cols.set t ⟨.shared 1, col.data⟩).set t ⟨.shared 2, col.data⟩)[t]?
      = some ⟨.shared 2, col.data⟩
    rw [List.getElem?_set_self (by rw [List.length_set]; exact hlt)]
  · intro hnone
    exact ⟨components_ref_not_registered hnone, components_mut_not_registered hnone⟩

theorem C4_borrow_rules_witness :
    components_ref (⟨[], [], 0, [⟨.exclusive, []⟩]⟩ : Chunk) 0
      = .error .ComponentAlreadyBorrowedMutably ∧
    components_mut (⟨[], [], 0, [⟨.exclusive, []⟩]⟩ : Chunk) 0
      = .error .ComponentAlreadyBorrowedMutably ∧
    (∃ c2 c3, components_ref (mkChunk 1) 0 = .ok c2 ∧ components_ref c2 0 = .ok c3 ∧
      c3.cols[0]? = some ⟨.shared 2, []⟩) ∧
    components_ref (mkChunk 1) 1 = .error .ComponentNotRegistered := by
  refine ⟨?_, ?_, ?_, ?_⟩
  · exact (C4_borrow_rules ⟨[], [], 0, [⟨.exclusive, []⟩]⟩ 0).1 ⟨.exclusive, []⟩
      (by decide) rfl
  · exact (C4_borrow_rules ⟨[], [], 0, [⟨.exclusive, []⟩]⟩ 0).2.1 ⟨.exclusive, []⟩
      (by decide) (by decide)
  · exact (C4_borrow_rules (mkChunk 1) 0).2.2.1 ⟨.free, []⟩ (by decide) rfl
  · exact ((C4_borrow_rules (mkChunk 1) 1).2.2.2 (by decide)).1

/-- C9: through an exclusive writer view over a store whose index rows are in
bounds for the column, `insert` attaches or overwrites a component so that an
immediately following `get` (or `get_mut`) returns the value, `remove`
detaches it so that `get` returns `none`, both fail with `InvalidEntity` for
an entity that is not a live row, and `get`/`get_mut` return `none` both for
unknown entities and for live entities holding no value of that type. -/
theorem C9_writer_ops (m : ComponentsMutView) (e : Entity) (i : Nat) (v : Nat)
    (hl : lookupA m.indexes e = some i) (hi : i < m.values.length) :
    (m.insert e v = .ok { m with values := m.values.set i (some v) } ∧
      ComponentsMutView.get { m with values := m.values.set i (some v) } e = some v ∧
      ComponentsMutView.get_mut { m with values := m.values.set i (some v) } e
        = some v) ∧
    (m.remove e = .ok { m with values := m.values.set i none } ∧
      ComponentsMutView.get { m with values := m.values.set i none } e = none) ∧
    (m.values.getD i none = none → m.get e = none ∧ m.get_mut e = none) ∧
    (∀ f, lookupA m.indexes f = none →
      m.insert f v = .error (.InvalidEntity f) ∧
      m.remove f = .error (.InvalidEntity f) ∧
      m.get f = none ∧ m.get_mut f = none) := by
  refine ⟨⟨?_, ?_, ?_⟩, ⟨?_, ?_⟩, ?_, ?_⟩
  · simp [ComponentsMutView.insert, hl]
  · simp only [ComponentsMutView.get, hl]
    rw [List.getD_eq_getElem?_getD, List.getElem?_set_self hi]
    rfl
  · simp only [ComponentsMutView.get_mut, hl]
    rw [List.getD_eq_getElem?_getD, List.getElem?_set_self hi]
    rfl
  · simp [ComponentsMutView.remove, hl]
  · simp only [ComponentsMutView.get, hl]
    rw [List.getD_eq_getElem?_getD, List.getElem?_set_self hi]
    rfl
  · intro h0
    constructor
    · simp only [ComponentsMutView.get, hl]
      exact h0
    · simp only [ComponentsMutView.get_mut, hl]
      exact h0
  · intro f hf
    refine ⟨?_, ?_, ?_, ?_⟩
    · simp [ComponentsMutView.insert, hf]
    · simp [ComponentsMutView.remove, hf]
    · simp [ComponentsMutView.get, hf]
    · simp [ComponentsMutView.get_mut, hf]

theorem C9_writer_ops_witness :
    lookupA (⟨[(5, 0)], [none]⟩ : ComponentsMutView).indexes 5 = some 0 ∧
    0 < (⟨[(5, 0)], [none]⟩ : ComponentsMutView).values.length ∧
    (⟨[(5, 0)], [none]⟩ : ComponentsMutView).insert 5 7
      = .ok ⟨[(5, 0)], [some 7]⟩ ∧
    ComponentsMutView.get ⟨[(5, 0)], [some 7]⟩ 5 = some 7 := by
  have h := (C9_writer_ops ⟨[(5, 0)], [none]⟩ 5 0 7 (by decide) (by decide)).1
  exact ⟨by decide, by decide, h.1, h.2.1⟩

/-- C3 counterexample: with one registered column whose lock is write-held,
`spawn` fails (the column append fails), yet the store is left misaligned —
the dense entity sequence gained a row while the index map and the column did
not, contradicting the claim that on error everything is unchanged or at
least mutually consistent. -/
theorem C3_spawn_error_misaligns_counterexample :
    ((⟨[], [], 0, [⟨.exclusive, []⟩]⟩ : Chunk).spawn.1
      = .error .ComponentAlreadyBorrowedMutably) ∧
    (⟨[], [], 0, [⟨.exclusive, []⟩]⟩ : Chunk).spawn.2.id.length = 1 ∧
    (⟨[], [], 0, [⟨.exclusive, []⟩]⟩ : Chunk).spawn.2.indexes.length = 0 ∧
    ¬ ((⟨[], [], 0, [⟨.exclusive, []⟩]⟩ : Chunk).spawn.2.indexes.length
        = (⟨[], [], 0, [⟨.exclusive, []⟩]⟩ : Chunk).spawn.2.id.length ∧
      ∀ col ∈ (⟨[], [], 0, [⟨.exclusive, []⟩]⟩ : Chunk).spawn.2.cols,
        col.data.length = (⟨[], [], 0, [⟨.exclusive, []⟩]⟩ : Chunk).spawn.2.id.length) := by
  decide

theorem push_none_sound_none_iff (cols : List Column) :
    (push_none cols).2 = none ↔ ∀ col ∈ cols, col.borrow = .free := by
  induction cols with
  | nil => simp [push_none]
  | cons col rest ih =>
    by_cases hcol : col.borrow = .free
    · simp [push_none, hcol, ih]
    · simp [push_none, hcol]

/-- C3 amended: spawn fails exactly when appending an absent slot to some
registered column fails (a held column lock, unreachable through the safe
public API); on such a failure the index map and generator are unchanged but
the dense entity sequence has already been extended by the reserved id, so
the store IS left misaligned on the error path; whenever every column lock is
free — as in every state reachable through the public API — spawn succeeds
and preserves the alignment invariant. -/
theorem C3_spawn_failure_behavior (c : Chunk) :
    ((∃ er, c.spawn.1 = .error er) ↔ ¬ ∀ col ∈ c.cols, col.borrow = .free) ∧
    (∀ er, c.spawn.1 = .error er →
      c.spawn.2.indexes = c.indexes ∧
      c.spawn.2.id = c.id ++ [c.entity_id_generator] ∧
      c.spawn.2.entity_id_generator = c.entity_id_generator) ∧
    ((∀ col ∈ c.cols, col.borrow = .free) →
      c.spawn.1 = .ok c.entity_id_generator ∧
      (Inv c → c.entity_id_generator + 1 < U64 → Inv c.spawn.2)) := by
  refine ⟨?_, ?_, ?_⟩
  · constructor
    · intro her hall
      obtain ⟨er, her⟩ := her
      rw [spawn_eq_of_free hall] at her
      exact Except.noConfusion her
    · intro hnot
      cases hp : (push_none c.cols).2 with
      | none => exact absurd ((push_none_sound_none_iff c.cols).mp hp) hnot
      | some er =>
        refine ⟨er, ?_⟩
        simp [Chunk.spawn, hp]
  · intro er her
    cases hp : (push_none c.cols).2 with
    | none =>
      have hok : c.spawn.1 = .ok c.entity_id_generator := by
        simp [Chunk.spawn, hp]
      rw [hok] at her
      exact Except.noConfusion her
    | some er2 =>
      refine ⟨?_, ?_, ?_⟩ <;> simp [Chunk.spawn, hp]
  · intro hall
    refine ⟨?_, fun hinv hb => (inv_spawn hinv hb).1⟩
    rw [spawn_eq_of_free hall]

theorem C3_spawn_failure_behavior_witness :
    (∀ col ∈ (mkChunk 1).cols, col.borrow = .free) ∧
    (mkChunk 1).spawn.1 = .ok 0 ∧
    ((⟨[], [], 0, [⟨.exclusive, []⟩]⟩ : Chunk).spawn.1
      = .error .ComponentAlreadyBorrowedMutably) ∧
    (⟨[], [], 0, [⟨.exclusive, []⟩]⟩ : Chunk).spawn.2.indexes = [] := by
  have hall : ∀ col ∈ (mkChunk 1).cols, col.borrow = .free := by decide
  refine ⟨hall, ((C3_spawn_failure_behavior (mkChunk 1)).2.2 hall).1, by decide, ?_⟩
  exact ((C3_spawn_failure_behavior ⟨[], [], 0, [⟨.exclusive, []⟩]⟩).2.1
    .ComponentAlreadyBorrowedMutably (by decide)).1

/-- C5: `CommandQueue::flush` applies queued commands strictly in enqueue
(FIFO) order and stops at the first failing command: a fully successful
prefix acts as state composition, a failure after that prefix propagates that
command's error while the prefix's effects persist and the commands behind
the failure stay un-applied, and a flush that returns success has emptied the
queue. -/
theorem C5_flush_fifo_first_error :
    (∀ (pre : List Cmd) (c : Chunk) (r : Res) (s : Chunk × Res),
      flush pre c r = (s, [], none) →
      ∀ rest, flush (pre ++ rest) c r = flush rest s.1 s.2) ∧
    (∀ (pre post : List Cmd) (bad : Cmd) (c : Chunk) (r : Res) (s : Chunk × Res)
      (er : Err),
      flush pre c r = (s, [], none) → bad s.1 s.2 = .error er →
      flush (pre ++ bad :: post) c r = (s, post, some er)) ∧
    (∀ (q : List Cmd) (c : Chunk) (r : Res) (s : Chunk × Res) (rem : List Cmd),
      flush q c r = (s, rem, none) → rem = []) := by
  refine ⟨flush_append_of_ok, ?_, flush_rem_nil_of_none⟩
  intro pre post bad c r s er hpre hbad
  rw [flush_append_of_ok pre c r s hpre (bad :: post), flush, hbad, Prod.mk.eta]

theorem C5_flush_fifo_first_error_witness :
    flush [fun c r => .ok (c, r ++ [1])] (mkChunk 0) []
      = ((mkChunk 0, [1]), [], none) ∧
    flush [fun c r => .ok (c, r ++ [1]),
           fun _ _ => .error .CommandQueueMissing,
           fun c r => .ok (c, r ++ [3])] (mkChunk 0) []
      = ((mkChunk 0, [1]), [fun c r => .ok (c, r ++ [3])], some .CommandQueueMissing) := by
  refine ⟨rfl, ?_⟩
  exact C5_flush_fifo_first_error.2.1
    [fun c r => .ok (c, r ++ [1])]
    [fun c r => .ok (c, r ++ [3])]
    (fun _ _ => .error .CommandQueueMissing)
    (mkChunk 0) [] (mkChunk 0, [1]) .CommandQueueMissing rfl rfl

/-- C6: the per-row sequence of a pair query is the positional zip of its
members' per-row sequences — a row of the composite is present with the pair
of member values exactly when both members are present at that row, and
absent otherwise; the terminal `query` keeps exactly the present rows, in row
order; and in the spec's scenario (X on entities 1 and 2, Y on entities 2 and
3, built through spawn/add_component) the composed query over (X, Y) yields
exactly entity 2's combined value. -/
theorem C6_pair_query_zip (a : List (Option Nat)) (b : List (Option Nat)) (i : Nat) :
    ((pairIter a b).getD i none = optZip (a.getD i none) (b.getD i none)) ∧
    ((pairIter a b).getD i none = none ∨
      ∃ x y, a.getD i none = some x ∧ b.getD i none = some y ∧
        (pairIter a b).getD i none = some (x, y)) ∧
    (∀ l : List (Option Nat), queryList ((none : Option Nat) :: l) = queryList l) ∧
    (∀ (x : Nat) (l : List (Option Nat)), queryList (some x :: l) = x :: queryList l) ∧
    (queryList ([] : List (Option Nat)) = []) ∧
    ((queryScenario.cols.getD 0 ⟨.free, []⟩).data
        = [none, some 10, some 20, none] ∧
      (queryScenario.cols.getD 1 ⟨.free, []⟩).data
        = [none, none, some 21, some 31] ∧
      queryList (pairIter (queryScenario.cols.getD 0 ⟨.free, []⟩).data
                          (queryScenario.cols.getD 1 ⟨.free, []⟩).data)
        = [(20, 21)] ∧
      lookupA queryScenario.indexes 2 = some 2) := by
  refine ⟨pairIter_getD a b i, ?_, ?_, ?_, rfl, by decide⟩
  · rw [pairIter_getD a b i]
    cases hx : a.getD i none with
    | none => exact Or.inl rfl
    | some x =>
      cases hy : b.getD i none with
      | none => exact Or.inl rfl
      | some y => exact Or.inr ⟨x, y, rfl, rfl, rfl⟩
  · intro l
    simp [queryList]
  · intro x l
    simp [queryList]

/-- C7: `SystemsContext::run` resolves the declared parameter tuple in
declaration order — if a parameter's borrow cannot be satisfied after the
parameters before it resolved, run returns that parameter's specific error
with the store, resources and queue unchanged and the body never invoked; on
successful resolution every declared borrow is held simultaneously in the
resolved state, the body is invoked exactly once, the borrows die with the
body's scope so the flush runs against the store the body produced, and a
flush failure is reported as run's error without re-invoking the body. -/
theorem C7_run_resolution (specs : List ParamSpec)
    (body : Chunk → Res → List Cmd → Chunk × Res × List Cmd)
    (c : Chunk) (r : Res) (q : List Cmd) :
    (∀ pre p post s er, specs = pre ++ p :: post →
      get_params pre (c, false) = .ok s → get_param p s = .error er →
      run specs body c r q = ⟨some er, c, r, q, 0⟩) ∧
    (∀ s, get_params specs (c, false) = .ok s →
      ((∀ t, ParamSpec.compMut t ∈ specs →
          ∃ col, s.1.cols[t]? = some col ∧ col.borrow = .exclusive) ∧
        (∀ t, ParamSpec.compRef t ∈ specs →
          ∃ col n, s.1.cols[t]? = some col ∧ col.borrow = .shared n ∧ 0 < n) ∧
        (ParamSpec.commands ∈ specs → s.2 = true)) ∧
      run specs body c r q =
        ⟨(flush (body c r q).2.2 (body c r q).1 (body c r q).2.1).2.2,
          (flush (body c r q).2.2 (body c r q).1 (body c r q).2.1).1.1,
          (flush (body c r q).2.2 (body c r q).1 (body c r q).2.1).1.2,
          (flush (body c r q).2.2 (body c r q).1 (body c r q).2.1).2.1, 1⟩) := by
  constructor
  · intro pre p post s er hspecs hpre hp
    have herr : get_params specs (c, false) = .error er := by
      rw [hspecs, get_params_append, hpre]
      show get_params (p :: post) s = .error er
      rw [get_params_cons, hp]
      rfl
    simp [run, herr]
  · intro s hok
    obtain ⟨c2, ql2⟩ := s
    refine ⟨get_params_borrows_live specs c false c2 ql2 hok, ?_⟩
    simp [run, hok]

theorem C7_run_resolution_witness :
    run [ParamSpec.compRef 1] (fun c r q => (c, r, q)) (mkChunk 1) [] []
      = ⟨some .ComponentNotRegistered, mkChunk 1, [], [], 0⟩ ∧
    run [ParamSpec.compMut 0] (fun c r q => (c, r, q)) (mkChunk 1) [] []
      = ⟨none, mkChunk 1, [], [], 1⟩ := by
  constructor
  · exact (C7_run_resolution [ParamSpec.compRef 1] (fun c r q => (c, r, q))
      (mkChunk 1) [] []).1 [] (ParamSpec.compRef 1) [] (mkChunk 1, false)
      .ComponentNotRegistered rfl rfl rfl
  · exact ((C7_run_resolution [ParamSpec.compMut 0] (fun c r q => (c, r, q))
      (mkChunk 1) [] []).2
      ({ mkChunk 1 with cols := [⟨.exclusive, []⟩] }, false) rfl).2

end Microecs
